import Mathlib

/-!
# Verification of the `AsyncQueue` bounded producer-consumer queue

This file gives a shallow embedding of the `AsyncQueue` TypeScript class
(`src/index.ts`): a bounded, closable FIFO queue backed by a circular
buffer, with LIFO stacks of suspended producer/consumer continuations.

Modelling decisions:

* JavaScript numbers are modelled as `ℚ`.  Every number that actually
  occurs in the queue's arithmetic (integer counts and indices below
  `2 ^ 53`, and fractional capacities such as `1.5`) is represented
  exactly by an IEEE double, so on these values double arithmetic and
  exact rational arithmetic agree.  (`NaN`/`Infinity` are outside the
  model.)  The 32-bit coercions performed by `Math.clz32` and `<<` are
  modelled explicitly (`jsToUint32`, `jsToInt32`, `jsShl`).
* JavaScript runtime values stored in the queue are modelled by
  `Val := Option ℕ`: `none` is the JS value `undefined` (the content of
  an empty array slot, and the end-of-stream result of `dequeue`), and
  `some n` stands for any other value.  This keeps the JS-level
  collapse between "`undefined` stored as an item" and "`undefined` as
  the end-of-stream marker", which the source exhibits.
* The queue methods are `async`, but every segment of code between two
  `await`s runs atomically on the single JS thread.  Each pending
  `enqueue`/`dequeue` call is modelled as a task with an explicit state
  (running was just called / suspended on an unresolved promise /
  resolver called, continuation scheduled / finished).  Calling a stored
  resolver marks the suspended task as resumed; the resumed segment runs
  later as a separate atomic step.  `Step` is the resulting small-step
  relation over all interleavings; `Traces` iterates it, recording for
  each step whether an item entered (`Label.push`) or left
  (`Label.pop`) the circular buffer.
* `Step` lets a resumed continuation run at any later point, which
  over-approximates the JS event loop; that is sound for the
  universally-quantified theorems proved over it, but it admits
  resumption orders the JS microtask queue forbids.  The scheduled
  machine (`SConfig`, `SStep`) refines it: continuations whose resolver
  has been called are kept in a microtask queue in resolution order and
  only the front one may run next — exactly JS's FIFO microtask rule —
  while fresh calls and `close()` still interleave arbitrarily.
  Properties that depend on the order in which woken continuations run
  are settled on the scheduled machine.
* The source keeps each waiter stack as an array plus a live count
  (`waitingConsumers`/`waitingConsumersCount`); slots at and beyond the
  count are `undefined` and unobservable.  The model keeps exactly the
  live region as a `List ℕ` of task ids, so `pushWaiter` is an append at
  the end and `popWaiter` removes the last element, as in the source.
-/

namespace AsyncQueue

/-- A JavaScript runtime value: `none` is `undefined`, `some n` is any
other (defined) value. -/
abbrev Val := Option ℕ

/-- Exact rational subtraction, written out on numerators and
denominators.  This is the same function as `Sub.sub` on `ℚ`
(`jsSub_eq` below), spelled so that the kernel can evaluate it on
literals; it models JS `-` on the exactly-representable doubles this
development uses. -/
def jsSub (a b : ℚ) : ℚ :=
  mkRat (a.num * b.den - b.num * a.den) (a.den * b.den)

/-- Truncation toward zero, the first step of JS `ToUint32`/`ToInt32`. -/
def jsTrunc (q : ℚ) : ℤ :=
  if q < 0 then ⌈q⌉ else ⌊q⌋

/-- JS `ToUint32`: truncate toward zero, then reduce modulo `2^32`. -/
def jsToUint32 (q : ℚ) : ℕ :=
  (jsTrunc q % (2 ^ 32 : ℤ)).toNat

/-- Reduction of an integer into the signed 32-bit range, the final step
of JS `ToInt32`. -/
def jsToInt32 (n : ℤ) : ℤ :=
  (n + 2 ^ 31) % 2 ^ 32 - 2 ^ 31

/-- Number of significant bits of `n`, by structural recursion on a fuel
bound (any `fuel` with `n < 2 ^ fuel` gives `Nat.size n`, see
`bitLen_eq_size`). -/
def bitLen : ℕ → ℕ → ℕ
  | 0, _ => 0
  | fuel + 1, n => if n = 0 then 0 else bitLen fuel (n / 2) + 1

/-- `Math.clz32`: count of leading zeros of `ToUint32(q)` as a 32-bit
word. -/
def jsClz32 (q : ℚ) : ℕ :=
  32 - bitLen 32 (jsToUint32 q)

/-- JS `a << b` for a nonnegative integer `a` and a `Nat` shift count:
the shift count is masked to 5 bits and the result is a signed 32-bit
integer.  (In particular `1 << 31` is negative and `1 << 32 = 1`.) -/
def jsShl (a : ℤ) (b : ℕ) : ℤ :=
  jsToInt32 (jsToInt32 a * 2 ^ (b % 32))

/-- The mutable state of one `AsyncQueue` instance.  `waitingConsumers`
and `waitingProducers` hold the task ids of the suspended calls whose
resolvers are stored in the corresponding arrays (live region only, in
array order: the last element is the most recently pushed resolver). -/
structure QState where
  maxSize : ℚ
  buffer : List Val
  head : ℕ
  tail : ℕ
  count : ℕ
  waitingConsumers : List ℕ
  waitingProducers : List ℕ
  closed : Bool
deriving DecidableEq, Repr

/-- The progress of one pending `enqueue`/`dequeue` call.
`enqWaiting`/`deqWaiting` : suspended on an unresolved promise whose
resolver is stored in a waiter stack.  `enqResumed`/`deqResumed` : the
resolver has been called, the continuation is scheduled but has not run
yet.  `enqDone true` : returned normally; `enqDone false` : threw the
"Queue is closed" error.  `deqDone v` : returned `v`. -/
inductive TaskState where
  | enqWaiting (item : Val)
  | enqResumed (item : Val)
  | enqDone (ok : Bool)
  | deqWaiting
  | deqResumed
  | deqDone (ret : Val)
deriving DecidableEq, Repr

/-- A queue together with all the `enqueue`/`dequeue` calls made on it so
far; task ids are positions in `tasks`. -/
structure Config where
  q : QState
  tasks : List TaskState
deriving DecidableEq, Repr

/-- Buffer event of one atomic step: an item was written to a slot
(`push`), an item was removed from a slot (`pop`), or neither. -/
inductive Label where
  | push (item : Val)
  | pop (item : Val)
  | tau
deriving DecidableEq, Repr

/-- Result of one atomic segment of `enqueue`/`dequeue`: the updated
queue state, the new state of the calling task, the id of the single
waiter whose resolver was called (if any), and the buffer event. -/
structure OpResult where
  q : QState
  task : TaskState
  wake : Option ℕ
  lab : Label
deriving DecidableEq, Repr

/-- The constructor:
`if (maxSize < 1) throw;`
`const bufferSize = 1 << (32 - Math.clz32(maxSize - 1));`
`this.buffer = new Array(bufferSize);`
`none` means construction threw (`maxSize < 1`, or `bufferSize` negative,
in which case `new Array(bufferSize)` throws a `RangeError`). -/
def mkQueue (maxSize : ℚ) : Option QState :=
  if maxSize < 1 then none
  else
    let bufferSize := jsShl 1 (32 - jsClz32 (jsSub maxSize 1))
    if bufferSize < 0 then none
    else some
      { maxSize := maxSize
        buffer := List.replicate bufferSize.toNat none
        head := 0
        tail := 0
        count := 0
        waitingConsumers := []
        waitingProducers := []
        closed := false }

/-- `addToBuffer`: `buffer[tail] = item; tail = (tail + 1) & (buffer.length - 1); count++`. -/
def addToBuffer (q : QState) (item : Val) : QState :=
  { q with
    buffer := q.buffer.set q.tail item
    tail := (q.tail + 1) &&& (q.buffer.length - 1)
    count := q.count + 1 }

/-- `removeFromBuffer`: returns `undefined` on an empty queue, else reads
`buffer[head]`, clears the slot, advances `head`, decrements `count`. -/
def removeFromBuffer (q : QState) : QState × Val :=
  if q.count = 0 then (q, none)
  else
    let item := q.buffer.getD q.head none
    ({ q with
        buffer := q.buffer.set q.head none
        head := (q.head + 1) &&& (q.buffer.length - 1)
        count := q.count - 1 }, item)

/-- One atomic segment of `enqueue(item)` by task `tid`, covering both
the initial call and the continuation after an `await`: check `closed`
(throw if set), then the `while (count >= maxSize && !closed)` guard
(suspend by pushing a resolver if it holds), else `addToBuffer` and wake
one waiting consumer (LIFO pop) if any. -/
def enqueueStep (q : QState) (tid : ℕ) (item : Val) : OpResult :=
  if q.closed then
    ⟨q, .enqDone false, none, .tau⟩
  else if q.maxSize ≤ (q.count : ℚ) ∧ q.closed = false then
    ⟨{ q with waitingProducers := q.waitingProducers ++ [tid] },
      .enqWaiting item, none, .tau⟩
  else
    let q1 := addToBuffer q item
    match q1.waitingConsumers.getLast? with
    | some cid =>
        ⟨{ q1 with waitingConsumers := q1.waitingConsumers.dropLast },
          .enqDone true, some cid, .push item⟩
    | none => ⟨q1, .enqDone true, none, .push item⟩

/-- One atomic segment of `dequeue()` by task `tid`, covering both the
initial call and the continuation after an `await`: the
`while (count === 0 && !closed)` guard (suspend by pushing a resolver if
it holds), then the `count === 0 && closed` end-of-stream return, else
`removeFromBuffer` and wake one waiting producer (LIFO pop) if any. -/
def dequeueStep (q : QState) (tid : ℕ) : OpResult :=
  if q.count = 0 ∧ q.closed = false then
    ⟨{ q with waitingConsumers := q.waitingConsumers ++ [tid] },
      .deqWaiting, none, .tau⟩
  else if q.count = 0 ∧ q.closed = true then
    ⟨q, .deqDone none, none, .tau⟩
  else
    let r := removeFromBuffer q
    match r.1.waitingProducers.getLast? with
    | some pid =>
        ⟨{ r.1 with waitingProducers := r.1.waitingProducers.dropLast },
          .deqDone r.2, some pid, .pop r.2⟩
    | none => ⟨r.1, .deqDone r.2, none, .pop r.2⟩

/-- Effect on a suspended task of its stored resolver being called. -/
def resumeTask : TaskState → TaskState
  | .enqWaiting item => .enqResumed item
  | .deqWaiting => .deqResumed
  | t => t

/-- Call the resolver of task `tid`: its suspended call becomes
scheduled-to-resume. -/
def wakeTask (tasks : List TaskState) (tid : ℕ) : List TaskState :=
  tasks.set tid (resumeTask (tasks.getD tid .deqWaiting))

/-- Apply the (at most one) wake performed by an `enqueue`/`dequeue`
segment. -/
def applyWake (tasks : List TaskState) : Option ℕ → List TaskState
  | none => tasks
  | some tid => wakeTask tasks tid

/-- Call the resolvers of `ids` in order, as the sweep loops in
`close()` do. -/
def resumeIds (tasks : List TaskState) (ids : List ℕ) : List TaskState :=
  ids.foldl wakeTask tasks

/-- A fresh `enqueue(item)` call: a new task runs the first atomic
segment of `enqueue`. -/
def doEnqueueCall (c : Config) (item : Val) : Config × Label :=
  let r := enqueueStep c.q c.tasks.length item
  (⟨r.q, applyWake (c.tasks ++ [r.task]) r.wake⟩, r.lab)

/-- A fresh `dequeue()` call: a new task runs the first atomic segment of
`dequeue`. -/
def doDequeueCall (c : Config) : Config × Label :=
  let r := dequeueStep c.q c.tasks.length
  (⟨r.q, applyWake (c.tasks ++ [r.task]) r.wake⟩, r.lab)

/-- A resumed `enqueue` task runs its next atomic segment (re-check
`closed`, re-check the capacity guard). -/
def doEnqueueResume (c : Config) (tid : ℕ) (item : Val) : Config × Label :=
  let r := enqueueStep c.q tid item
  (⟨r.q, applyWake (c.tasks.set tid r.task) r.wake⟩, r.lab)

/-- A resumed `dequeue` task runs its next atomic segment. -/
def doDequeueResume (c : Config) (tid : ℕ) : Config × Label :=
  let r := dequeueStep c.q tid
  (⟨r.q, applyWake (c.tasks.set tid r.task) r.wake⟩, r.lab)

/-- `close()`: set `closed`, call every stored consumer resolver in array
order, then every stored producer resolver, and clear both stacks. -/
def close (c : Config) : Config :=
  ⟨{ c.q with
      closed := true
      waitingConsumers := []
      waitingProducers := [] },
    resumeIds (resumeIds c.tasks c.q.waitingConsumers) c.q.waitingProducers⟩

/-- The `isClosed` getter: `closed && count === 0`. -/
def isClosed (q : QState) : Bool :=
  q.closed && q.count == 0

/-- The `size` getter. -/
def size (q : QState) : ℕ :=
  q.count

/-- The `capacity` getter: the user-requested `maxSize`, not the rounded
buffer length. -/
def capacity (q : QState) : ℚ :=
  q.maxSize

/-- The `isFull` getter: `count >= maxSize`. -/
def isFull (q : QState) : Bool :=
  decide (q.maxSize ≤ (q.count : ℚ))

/-- The `isEmpty` getter. -/
def isEmpty (q : QState) : Bool :=
  q.count == 0

/-- The `waitingConsumerCount` getter (live region length). -/
def waitingConsumerCount (q : QState) : ℕ :=
  q.waitingConsumers.length

/-- The `waitingProducerCount` getter (live region length). -/
def waitingProducerCount (q : QState) : ℕ :=
  q.waitingProducers.length

/-- One small step of the whole system: a fresh `enqueue` or `dequeue`
call, a `close()` call, or a previously woken task running its
continuation.  The label records the step's buffer event. -/
inductive Step : Config → Label → Config → Prop where
  | enq (c : Config) (item : Val) :
      Step c (doEnqueueCall c item).2 (doEnqueueCall c item).1
  | deq (c : Config) :
      Step c (doDequeueCall c).2 (doDequeueCall c).1
  | close (c : Config) :
      Step c .tau (close c)
  | resumeEnq (c : Config) (tid : ℕ) (item : Val)
      (h : c.tasks.get? tid = some (.enqResumed item)) :
      Step c (doEnqueueResume c tid item).2 (doEnqueueResume c tid item).1
  | resumeDeq (c : Config) (tid : ℕ)
      (h : c.tasks.get? tid = some .deqResumed) :
      Step c (doDequeueResume c tid).2 (doDequeueResume c tid).1

/-- Iterated steps with the list of their labels. -/
inductive Traces : Config → List Label → Config → Prop where
  | nil (c : Config) : Traces c [] c
  | snoc {c c1 c2 : Config} {ls : List Label} {l : Label}
      (h : Traces c ls c1) (hs : Step c1 l c2) : Traces c (ls ++ [l]) c2

/-- Items a label wrote into the buffer. -/
def pushes : Label → List Val
  | .push v => [v]
  | _ => []

/-- Items a label removed from the buffer. -/
def pops : Label → List Val
  | .pop v => [v]
  | _ => []

/-- All items accepted into the buffer along a trace, in acceptance
order. -/
def acceptedOf : List Label → List Val
  | [] => []
  | l :: ls => pushes l ++ acceptedOf ls

/-- All items removed from the buffer along a trace, in removal order. -/
def deliveredOf : List Label → List Val
  | [] => []
  | l :: ls => pops l ++ deliveredOf ls

/-- The live content of the circular buffer in queue order: slot
`(head + i) % buffer.length` for `i < count`. -/
def bufItems (q : QState) : List Val :=
  (List.range q.count).map fun i =>
    (q.buffer.get? ((q.head + i) % q.buffer.length)).getD none

/-- The synchronous path of one `dequeue` call: `none` when the call
would suspend (`count === 0 && !closed`).  The task id is irrelevant on
this path. -/
def dequeueSync (q : QState) : Option (QState × Val) :=
  let r := dequeueStep q 0
  match r.task with
  | .deqDone v => some (r.q, v)
  | _ => none

/-- `n` consecutive synchronous `dequeue` calls with the list of their
results (stops early only if a call would suspend, which cannot happen on
a closed queue). -/
def deqN (q : QState) : ℕ → QState × List Val
  | 0 => (q, [])
  | n + 1 =>
    match dequeueSync q with
    | some (q1, v) =>
      let r := deqN q1 n
      (r.1, v :: r.2)
    | none => (q, [])

/-- The `take(n)` helper on its synchronous path:
`for (i = 0; i < n && !isClosed; i++) { item = await dequeue(); if (item !== undefined) items.push(item); else break; }`.
Returns `none` if some inner `dequeue` would suspend. -/
def take (q : QState) : ℕ → Option (List Val × QState)
  | 0 => some ([], q)
  | n + 1 =>
    if isClosed q then some ([], q)
    else
      match dequeueSync q with
      | none => none
      | some (q1, item) =>
        if item = none then some ([], q1)
        else
          match take q1 n with
          | none => none
          | some p => some (item :: p.1, p.2)

/-- The async-iterator loop on its synchronous path, with fuel:
`while (true) { item = await dequeue(); if (item === undefined) break; yield item; }`.
Returns the yielded items once the loop breaks; `none` if the fuel runs
out or some `dequeue` would suspend.  `drain()` and `for await` collect
exactly these yields. -/
def iterItems (q : QState) : ℕ → Option (List Val × QState)
  | 0 => none
  | n + 1 =>
    match dequeueSync q with
    | none => none
    | some (q1, item) =>
      if item = none then some ([], q1)
      else
        match iterItems q1 n with
        | none => none
        | some p => some (item :: p.1, p.2)

/-- `drain()`: collect the async iterator until end-of-stream. -/
def drain (q : QState) (fuel : ℕ) : Option (List Val × QState) :=
  iterItems q fuel

/-! ### Concrete states used by the example-based theorems below -/

/-- The queue produced by `new AsyncQueue(1)`. -/
def qCap1 : QState :=
  ⟨1, [none], 0, 0, 0, [], [], false⟩

/-- The queue produced by `new AsyncQueue(2)`. -/
def qCap2 : QState :=
  ⟨2, [none, none], 0, 0, 0, [], [], false⟩

/-- The queue produced by `new AsyncQueue(2**31 + 1)`: the 32-bit shift
wraps and the slot array has a single slot.  (`2147483649 = 2^31 + 1`.) -/
def qBig : QState :=
  ⟨2147483649, [none], 0, 0, 0, [], [], false⟩

/-- The queue produced by `new AsyncQueue(1.5)`: `1.5` passes the
`maxSize < 1` check and the slot array has a single slot.
(`mkRat 3 2 = 1.5`.) -/
def qFrac : QState :=
  ⟨mkRat 3 2, [none], 0, 0, 0, [], [], false⟩

/-- `enqueue(1); enqueue(2)` on a fresh capacity-`2**31 + 1` queue. -/
def cBig2 : Config :=
  (doEnqueueCall (doEnqueueCall ⟨qBig, []⟩ (some 1)).1 (some 2)).1

/-- ... followed by `dequeue()`. -/
def cBig3 : Config :=
  (doDequeueCall cBig2).1

/-- The labels of the `cBig3` trace. -/
def lsBig : List Label :=
  [(doEnqueueCall ⟨qBig, []⟩ (some 1)).2,
   (doEnqueueCall (doEnqueueCall ⟨qBig, []⟩ (some 1)).1 (some 2)).2,
   (doDequeueCall cBig2).2]

/-- Two `dequeue()` calls on a fresh capacity-1 queue: both suspend. -/
def cGap2 : Config :=
  (doDequeueCall (doDequeueCall ⟨qCap1, []⟩).1).1

/-- ... followed by `enqueue(7)`, which wakes only the most recent
waiter (task 1) and leaves task 0 registered while `count = 1`. -/
def cGap3 : Config :=
  (doEnqueueCall cGap2 (some 7)).1

/-- `enqueue(1); enqueue(2)` on a fresh capacity-`1.5` queue: both
return without suspending, and the second write lands on slot 0 again. -/
def cFrac2 : Config :=
  (doEnqueueCall (doEnqueueCall ⟨qFrac, []⟩ (some 1)).1 (some 2)).1

/-- `enqueue(undefined); enqueue(5)` on a fresh capacity-2 queue. -/
def cUndef2 : Config :=
  (doEnqueueCall (doEnqueueCall ⟨qCap2, []⟩ none).1 (some 5)).1

/-- The labels of the `cGap3` trace (`dequeue; dequeue; enqueue(7)`). -/
def lsGap3 : List Label :=
  [(doDequeueCall ⟨qCap1, []⟩).2,
   (doDequeueCall (doDequeueCall ⟨qCap1, []⟩).1).2,
   (doEnqueueCall cGap2 (some 7)).2]

/-- `enqueue(7)` on a fresh capacity-1 queue: the queue becomes full. -/
def cFull1 : Config :=
  (doEnqueueCall ⟨qCap1, []⟩ (some 7)).1

/-- The labels of the `cFull1` trace. -/
def lsFull1 : List Label :=
  [(doEnqueueCall ⟨qCap1, []⟩ (some 7)).2]

/-- `enqueue(1); enqueue(2)` on a fresh capacity-2 queue. -/
def cTwo2 : Config :=
  (doEnqueueCall (doEnqueueCall ⟨qCap2, []⟩ (some 1)).1 (some 2)).1

/-- The labels of the `cTwo2` trace. -/
def lsTwo2 : List Label :=
  [(doEnqueueCall ⟨qCap2, []⟩ (some 1)).2,
   (doEnqueueCall (doEnqueueCall ⟨qCap2, []⟩ (some 1)).1 (some 2)).2]

/-- One `dequeue()` call on a fresh capacity-1 queue: it suspends. -/
def cWait1 : Config :=
  (doDequeueCall ⟨qCap1, []⟩).1

/-- The labels of the `cWait1` trace. -/
def lsWait1 : List Label :=
  [(doDequeueCall ⟨qCap1, []⟩).2]

/-- `enqueue(1); enqueue(2); dequeue(); dequeue()` on a fresh capacity-2
queue: the queue is fully drained. -/
def cFour2 : Config :=
  (doDequeueCall (doDequeueCall cTwo2).1).1

/-- The labels of the `cFour2` trace. -/
def lsFour2 : List Label :=
  lsTwo2 ++ [(doDequeueCall cTwo2).2, (doDequeueCall (doDequeueCall cTwo2).1).2]

/-! ### Invariants -/

/-- Shape invariant of the circular buffer for an integer capacity `C`
whose rounded buffer really covers it: the buffer length is a power of
two at least `C`, `head` is in range, `tail` is `head + count`
(mod the length) and at most `C` items are live. -/
structure QInv (C : ℕ) (q : QState) : Prop where
  maxEq : q.maxSize = (C : ℚ)
  cpos : 1 ≤ C
  pow2 : ∃ k, q.buffer.length = 2 ^ k
  cle : C ≤ q.buffer.length
  headLt : q.head < q.buffer.length
  tailEq : q.tail = (q.head + q.count) % q.buffer.length
  countLe : q.count ≤ C

/-- Bookkeeping invariant tying the waiter stacks to the task list:
every registered consumer id points at a suspended `dequeue` task, every
registered producer id at a suspended `enqueue` task, no id is registered
twice, and nothing stays registered once the queue is closed. -/
structure TInv (c : Config) : Prop where
  cons : ∀ tid ∈ c.q.waitingConsumers, c.tasks.get? tid = some .deqWaiting
  prods : ∀ tid ∈ c.q.waitingProducers,
    ∃ v, c.tasks.get? tid = some (.enqWaiting v)
  consND : c.q.waitingConsumers.Nodup
  prodND : c.q.waitingProducers.Nodup
  closedEmpty : c.q.closed = true →
    c.q.waitingConsumers = [] ∧ c.q.waitingProducers = []

/-! ### The microtask-scheduled machine

JS resolves promises by queueing the awaiting continuation on the
microtask queue, and microtasks run strictly in FIFO order.  The machine
below makes that explicit: a configuration additionally carries the list
of pending resumed continuations in resolution order, and a resumed
continuation may run only from the front.  Fresh `enqueue`/`dequeue`
calls and `close()` (issued by arbitrary user code) may still happen at
any point between segments. -/

/-- One entry of the microtask queue: the id of a task whose stored
resolver has been called and whose continuation has not run yet.
`isCons` records whether the entry is a woken consumer (a `dequeue`
continuation) or a woken producer; `byClose` is a ghost marker set
exactly on the resolver calls made by the `close()` sweep. -/
structure MEntry where
  tid : ℕ
  isCons : Bool
  byClose : Bool
deriving DecidableEq, Repr

/-- A configuration of the scheduled machine: queue state, tasks, and
the pending resumed continuations in the order their resolvers were
called. -/
structure SConfig where
  q : QState
  tasks : List TaskState
  mtq : List MEntry
deriving DecidableEq, Repr

/-- Calling the resolver popped by an `enqueue`/`dequeue` segment marks
the task resumed and appends its continuation to the microtask queue. -/
def applyWakeS (c : SConfig) (b : Bool) : Option ℕ → SConfig
  | none => c
  | some tid => ⟨c.q, wakeTask c.tasks tid, c.mtq ++ [⟨tid, b, false⟩]⟩

/-- A fresh `enqueue(item)` call on the scheduled machine (any waiter it
wakes is a consumer). -/
def sEnqueueCall (c : SConfig) (item : Val) : SConfig :=
  let r := enqueueStep c.q c.tasks.length item
  applyWakeS ⟨r.q, c.tasks ++ [r.task], c.mtq⟩ true r.wake

/-- A fresh `dequeue()` call on the scheduled machine (any waiter it
wakes is a producer). -/
def sDequeueCall (c : SConfig) : SConfig :=
  let r := dequeueStep c.q c.tasks.length
  applyWakeS ⟨r.q, c.tasks ++ [r.task], c.mtq⟩ false r.wake

/-- The resumed `enqueue` task at the front of the microtask queue runs
its next atomic segment. -/
def sResumeEnq (c : SConfig) (tid : ℕ) (rest : List MEntry)
    (item : Val) : SConfig :=
  let r := enqueueStep c.q tid item
  applyWakeS ⟨r.q, c.tasks.set tid r.task, rest⟩ true r.wake

/-- The resumed `dequeue` task at the front of the microtask queue runs
its next atomic segment. -/
def sResumeDeq (c : SConfig) (tid : ℕ) (rest : List MEntry) : SConfig :=
  let r := dequeueStep c.q tid
  applyWakeS ⟨r.q, c.tasks.set tid r.task, rest⟩ false r.wake

/-- `close()` on the scheduled machine: the sweep calls every stored
consumer resolver in array order, then every producer resolver, so their
continuations enter the microtask queue in exactly that order, marked
`byClose`. -/
def sClose (c : SConfig) : SConfig :=
  ⟨{ c.q with
      closed := true
      waitingConsumers := []
      waitingProducers := [] },
    resumeIds (resumeIds c.tasks c.q.waitingConsumers) c.q.waitingProducers,
    c.mtq ++ c.q.waitingConsumers.map (fun tid => (⟨tid, true, true⟩ : MEntry))
          ++ c.q.waitingProducers.map (fun tid => (⟨tid, false, true⟩ : MEntry))⟩

/-- One small step of the scheduled machine.  Fresh calls and `close()`
can happen at any time, but a resumed continuation runs only when its
entry is at the front of the microtask queue — JS's FIFO microtask
ordering. -/
inductive SStep : SConfig → SConfig → Prop where
  | enq (c : SConfig) (item : Val) : SStep c (sEnqueueCall c item)
  | deq (c : SConfig) : SStep c (sDequeueCall c)
  | close (c : SConfig) : SStep c (sClose c)
  | runEnq (c : SConfig) (e : MEntry) (rest : List MEntry) (item : Val)
      (hq : c.mtq = e :: rest)
      (h : c.tasks.get? e.tid = some (.enqResumed item)) :
      SStep c (sResumeEnq c e.tid rest item)
  | runDeq (c : SConfig) (e : MEntry) (rest : List MEntry)
      (hq : c.mtq = e :: rest)
      (h : c.tasks.get? e.tid = some .deqResumed) :
      SStep c (sResumeDeq c e.tid rest)

/-- Iterated scheduled steps. -/
inductive SReach : SConfig → SConfig → Prop where
  | refl (c : SConfig) : SReach c c
  | tail {c c1 c2 : SConfig} (h : SReach c c1) (hs : SStep c1 c2) :
      SReach c c2

/-- Number of woken-consumer entries in a microtask-queue segment. -/
def dCount : List MEntry → ℕ
  | [] => 0
  | e :: l => (if e.isCons = true then 1 else 0) + dCount l

/-- Number of woken-consumer entries in a microtask-queue segment that
were not created by a `close()` sweep. -/
def uCount : List MEntry → ℕ
  | [] => 0
  | e :: l => (if e.isCons = true ∧ e.byClose = false then 1 else 0) + uCount l

/-- Scheduling invariant of the microtask queue.  Besides bookkeeping
(ids occur once, consumer entries point at resumed `dequeue` tasks,
producer entries at resumed `enqueue` tasks, `byClose` entries exist
only once `closed` is set), it carries the counting facts that make the
close sweep work out: while a consumer is still registered, every
buffered item has a matching woken-consumer continuation already in the
microtask queue (`countJ`); once closed, if a close-resumed consumer is
still pending then the buffered items are covered by the
earlier-resolved consumer continuations alone (`countK`); and all
close-resumed consumer entries sit behind all earlier-woken ones
(`mtqSplit`). -/
structure MInv (c : SConfig) : Prop where
  mtqND : (c.mtq.map MEntry.tid).Nodup
  mtqCons : ∀ e ∈ c.mtq, e.isCons = true →
    c.tasks.get? e.tid = some .deqResumed
  mtqProd : ∀ e ∈ c.mtq, e.isCons = false →
    ∃ v, c.tasks.get? e.tid = some (.enqResumed v)
  flagClosed : ∀ e ∈ c.mtq, e.byClose = true → c.q.closed = true
  countJ : c.q.waitingConsumers ≠ [] → c.q.count ≤ dCount c.mtq
  countK : c.q.closed = true →
    (∃ e ∈ c.mtq, e.isCons = true ∧ e.byClose = true) →
    c.q.count ≤ uCount c.mtq
  mtqSplit : ∃ l1 l2, c.mtq = l1 ++ l2 ∧
    (∀ e ∈ l1, ¬(e.isCons = true ∧ e.byClose = true)) ∧
    (∀ e ∈ l2, ¬(e.isCons = true ∧ e.byClose = false))

/-- `dequeue(); dequeue()` on a fresh capacity-1 queue on the scheduled
machine: both suspend. -/
def sGap2 : SConfig :=
  sDequeueCall (sDequeueCall ⟨qCap1, [], []⟩)

/-- ... followed by `enqueue(7)`: only the most recent waiter (task 1)
is woken, and its continuation is the single pending microtask. -/
def sGap3 : SConfig :=
  sEnqueueCall sGap2 (some 7)

/-- ... followed by `close()`, which resumes the still-registered task 0
behind task 1 in the microtask queue. -/
def sGap4 : SConfig :=
  sClose sGap3

/-- ... followed by the front microtask (task 1, woken by the enqueue)
running: it takes item 7, emptying the buffer before task 0 runs. -/
def sGap5 : SConfig :=
  sResumeDeq sGap4 1 [⟨0, true, true⟩]

/-! ### Numeric lemmas -/

theorem jsSub_eq (a b : ℚ) : jsSub a b = a - b :=
  (Rat.sub_def' a b).symm

theorem bitLen_le_iff {fuel n k : ℕ} (h : n < 2 ^ fuel) :
    bitLen fuel n ≤ k ↔ n < 2 ^ k := by
  induction fuel generalizing n k with
  | zero =>
    have hn : n = 0 := by omega
    subst hn
    simp only [bitLen]
    exact ⟨fun _ => by positivity, fun _ => Nat.zero_le _⟩
  | succ fuel ih =>
    by_cases h0 : n = 0
    · subst h0
      simp only [bitLen, if_pos rfl]
      exact ⟨fun _ => by positivity, fun _ => Nat.zero_le _⟩
    · simp only [bitLen, if_neg h0]
      have hpow : 2 ^ (fuel + 1) = 2 ^ fuel * 2 := by ring
      have hdiv : n / 2 < 2 ^ fuel := by omega
      cases k with
      | zero =>
        simp only [pow_zero]
        omega
      | succ k =>
        rw [Nat.succ_le_succ_iff, ih hdiv]
        have hk : 2 ^ (k + 1) = 2 ^ k * 2 := by ring
        omega

theorem bitLen_eq_size {fuel n : ℕ} (h : n < 2 ^ fuel) :
    bitLen fuel n = Nat.size n := by
  refine le_antisymm ?_ ?_
  · exact (bitLen_le_iff h).mpr (Nat.lt_size_self n)
  · exact Nat.size_le.mpr ((bitLen_le_iff h).mp le_rfl)

/-- Evaluation of the constructor on an integer capacity small enough
that the power-of-two rounding does not overflow the Int32 shift: the
slot array has length `2 ^ Nat.size (C - 1)`, the least power of two
that is at least `C`. -/
theorem mkQueue_int (C : ℕ) (h1 : 1 ≤ C) (h2 : C ≤ 2 ^ 30) :
    mkQueue (C : ℚ) = some
      { maxSize := (C : ℚ)
        buffer := List.replicate (2 ^ Nat.size (C - 1)) none
        head := 0
        tail := 0
        count := 0
        waitingConsumers := []
        waitingProducers := []
        closed := false } := by
  have hnotlt : ¬ ((C : ℚ) < 1) := by
    rw [not_lt]
    exact_mod_cast h1
  have hsub : jsSub (C : ℚ) 1 = ((C - 1 : ℕ) : ℚ) := by
    rw [jsSub_eq, Nat.cast_sub h1, Nat.cast_one]
  have htrunc : jsTrunc ((C - 1 : ℕ) : ℚ) = ((C - 1 : ℕ) : ℤ) := by
    rw [jsTrunc, if_neg (not_lt.mpr (by positivity)), Int.floor_natCast]
  have hlt32 : C - 1 < 2 ^ 32 := by
    have : (2 : ℕ) ^ 30 < 2 ^ 32 := by norm_num
    omega
  have huint : jsToUint32 ((C - 1 : ℕ) : ℚ) = C - 1 := by
    rw [jsToUint32, htrunc, Int.emod_eq_of_lt (by positivity) (by exact_mod_cast hlt32)]
    exact Int.toNat_natCast _
  have hsize30 : Nat.size (C - 1) ≤ 30 := Nat.size_le.mpr (by omega)
  have hbl : bitLen 32 (C - 1) = Nat.size (C - 1) := bitLen_eq_size hlt32
  have hclz : jsClz32 (jsSub (C : ℚ) 1) = 32 - Nat.size (C - 1) := by
    rw [jsClz32, hsub, huint, hbl]
  have hshiftamt : 32 - jsClz32 (jsSub (C : ℚ) 1) = Nat.size (C - 1) := by
    rw [hclz]; omega
  have hint32one : jsToInt32 1 = 1 := by decide
  have hpowlt : (2 : ℤ) ^ Nat.size (C - 1) + 2 ^ 31 < 2 ^ 32 := by
    have : (2 : ℤ) ^ Nat.size (C - 1) ≤ 2 ^ 30 :=
      pow_le_pow_right₀ (by norm_num) hsize30
    nlinarith
  have hshl : jsShl 1 (32 - jsClz32 (jsSub (C : ℚ) 1)) =
      ((2 ^ Nat.size (C - 1) : ℕ) : ℤ) := by
    rw [hshiftamt, jsShl, hint32one, one_mul,
      Nat.mod_eq_of_lt (by omega : Nat.size (C - 1) < 32), jsToInt32,
      Int.emod_eq_of_lt (by positivity) hpowlt]
    push_cast
    ring
  rw [mkQueue, if_neg hnotlt]
  simp only [hshl]
  rw [if_neg (not_lt.mpr (by positivity))]
  have hton : ((2 : ℤ) ^ Nat.size (C - 1)).toNat = 2 ^ Nat.size (C - 1) := by
    rw [show ((2 : ℤ) ^ Nat.size (C - 1)) = ((2 ^ Nat.size (C - 1) : ℕ) : ℤ) by
      push_cast; ring]
    exact Int.toNat_natCast _
  simp [hton]

theorem toNat_two_pow (j : ℕ) : ((2 : ℤ) ^ j).toNat = 2 ^ j := by
  rw [show ((2 : ℤ) ^ j) = ((2 ^ j : ℕ) : ℤ) by push_cast; ring]
  exact Int.toNat_natCast _

/-- The value of the JS expression `1 << k` for any shift count. -/
theorem jsShl_one (k : ℕ) :
    jsShl 1 k = if k % 32 = 31 then -(2 ^ 31) else 2 ^ (k % 32) := by
  have hk : k % 32 < 32 := Nat.mod_lt _ (by norm_num)
  rw [jsShl]
  generalize hj : k % 32 = j
  rw [hj] at hk
  interval_cases j <;> decide

/-- Inversion of a successful construction: the initial field values, and
the fact that the slot array is a power of two of exponent at most 30
filled with `undefined`. -/
theorem mkQueue_fields {m : ℚ} {q0 : QState} (h : mkQueue m = some q0) :
    q0.maxSize = m ∧ q0.head = 0 ∧ q0.tail = 0 ∧ q0.count = 0 ∧
    q0.waitingConsumers = [] ∧ q0.waitingProducers = [] ∧
    q0.closed = false ∧
    ∃ k, k ≤ 30 ∧ q0.buffer = List.replicate (2 ^ k) none := by
  by_cases h1 : m < 1
  · rw [mkQueue, if_pos h1] at h
    cases h
  · rw [mkQueue, if_neg h1] at h
    by_cases h2 : jsShl 1 (32 - jsClz32 (jsSub m 1)) < 0
    · rw [if_pos h2] at h
      cases h
    · rw [if_neg h2] at h
      injection h with h
      subst h
      refine ⟨rfl, rfl, rfl, rfl, rfl, rfl, rfl, ?_⟩
      have hone := jsShl_one (32 - jsClz32 (jsSub m 1))
      by_cases h31 : (32 - jsClz32 (jsSub m 1)) % 32 = 31
      · rw [if_pos h31] at hone
        rw [hone] at h2
        exact absurd (by norm_num) h2
      · rw [if_neg h31] at hone
        have hle : (32 - jsClz32 (jsSub m 1)) % 32 ≤ 30 := by
          have := Nat.mod_lt (32 - jsClz32 (jsSub m 1)) (show 0 < 32 by norm_num)
          omega
        refine ⟨(32 - jsClz32 (jsSub m 1)) % 32, hle, ?_⟩
        show List.replicate (jsShl 1 (32 - jsClz32 (jsSub m 1))).toNat none = _
        rw [hone, toNat_two_pow]

/-! ### Basic step lemmas -/

theorem enqueueStep_closed (q : QState) (tid : ℕ) (item : Val) :
    (enqueueStep q tid item).q.closed = q.closed := by
  simp only [enqueueStep, addToBuffer]
  split
  · rfl
  · split
    · rfl
    · split <;> rfl

theorem dequeueStep_closed (q : QState) (tid : ℕ) :
    (dequeueStep q tid).q.closed = q.closed := by
  simp only [dequeueStep, removeFromBuffer]
  split
  · rfl
  · split
    · rfl
    · split <;> split <;> rfl

theorem enqueueStep_maxSize (q : QState) (tid : ℕ) (item : Val) :
    (enqueueStep q tid item).q.maxSize = q.maxSize := by
  simp only [enqueueStep, addToBuffer]
  split
  · rfl
  · split
    · rfl
    · split <;> rfl

theorem dequeueStep_maxSize (q : QState) (tid : ℕ) :
    (dequeueStep q tid).q.maxSize = q.maxSize := by
  simp only [dequeueStep, removeFromBuffer]
  split
  · rfl
  · split
    · rfl
    · split <;> split <;> rfl

theorem get?_lt {α} {l : List α} {n : ℕ} {a : α}
    (h : l.get? n = some a) : n < l.length := by
  rcases List.get?_eq_some.mp h with ⟨hlt, _⟩
  exact hlt

theorem wakeTask_length (ts : List TaskState) (tid : ℕ) :
    (wakeTask ts tid).length = ts.length :=
  List.length_set ts tid _

theorem wakeTask_get?_ne {ts : List TaskState} {tid tid2 : ℕ}
    (h : tid ≠ tid2) : (wakeTask ts tid).get? tid2 = ts.get? tid2 :=
  List.get?_set_ne _ _ h

theorem wakeTask_get?_self {ts : List TaskState} {tid : ℕ} {t : TaskState}
    (h : ts.get? tid = some t) :
    (wakeTask ts tid).get? tid = some (resumeTask t) := by
  have hD : ts.getD tid .deqWaiting = t := by
    rw [List.getD_eq_get?, h]
    rfl
  rw [wakeTask, hD]
  exact List.get?_set_eq_of_lt _ (get?_lt h)

/-! Branch-equation lemmas for the two operation segments. -/

theorem enqueueStep_eq_closed {q : QState} (h : q.closed = true)
    (tid : ℕ) (item : Val) :
    enqueueStep q tid item = ⟨q, .enqDone false, none, .tau⟩ := by
  simp [enqueueStep, h]

theorem enqueueStep_eq_wait {q : QState} (h1 : q.closed = false)
    (h2 : q.maxSize ≤ (q.count : ℚ)) (tid : ℕ) (item : Val) :
    enqueueStep q tid item =
      ⟨{ q with waitingProducers := q.waitingProducers ++ [tid] },
        .enqWaiting item, none, .tau⟩ := by
  simp [enqueueStep, h1, h2]

theorem enqueueStep_eq_add_quiet {q : QState} (h1 : q.closed = false)
    (h2 : ¬ q.maxSize ≤ (q.count : ℚ)) (h3 : q.waitingConsumers = [])
    (tid : ℕ) (item : Val) :
    enqueueStep q tid item =
      ⟨addToBuffer q item, .enqDone true, none, .push item⟩ := by
  simp [enqueueStep, h1, h2, addToBuffer, h3]

theorem enqueueStep_eq_add_wake {q : QState} (h1 : q.closed = false)
    (h2 : ¬ q.maxSize ≤ (q.count : ℚ)) {cs : List ℕ} {cid : ℕ}
    (h3 : q.waitingConsumers = cs ++ [cid]) (tid : ℕ) (item : Val) :
    enqueueStep q tid item =
      ⟨{ addToBuffer q item with waitingConsumers := cs },
        .enqDone true, some cid, .push item⟩ := by
  simp [enqueueStep, h1, h2, addToBuffer, h3, List.getLast?_concat]

theorem dequeueStep_eq_wait {q : QState} (h1 : q.count = 0)
    (h2 : q.closed = false) (tid : ℕ) :
    dequeueStep q tid =
      ⟨{ q with waitingConsumers := q.waitingConsumers ++ [tid] },
        .deqWaiting, none, .tau⟩ := by
  simp [dequeueStep, h1, h2]

theorem dequeueStep_eq_end {q : QState} (h1 : q.count = 0)
    (h2 : q.closed = true) (tid : ℕ) :
    dequeueStep q tid = ⟨q, .deqDone none, none, .tau⟩ := by
  simp [dequeueStep, h1, h2]

theorem removeFromBuffer_lists {q : QState} (h : q.count ≠ 0) :
    (removeFromBuffer q).1.waitingConsumers = q.waitingConsumers ∧
    (removeFromBuffer q).1.waitingProducers = q.waitingProducers ∧
    (removeFromBuffer q).1.closed = q.closed ∧
    (removeFromBuffer q).1.maxSize = q.maxSize ∧
    (removeFromBuffer q).1.count = q.count - 1 := by
  simp [removeFromBuffer, h]

theorem dequeueStep_eq_pop_quiet {q : QState} (h1 : q.count ≠ 0)
    (h3 : q.waitingProducers = []) (tid : ℕ) :
    dequeueStep q tid =
      ⟨(removeFromBuffer q).1, .deqDone (removeFromBuffer q).2, none,
        .pop (removeFromBuffer q).2⟩ := by
  have hl := (removeFromBuffer_lists h1).2.1
  rw [dequeueStep]
  rw [if_neg (by simp [h1]), if_neg (by simp [h1])]
  simp [hl, h3]

theorem dequeueStep_eq_pop_wake {q : QState} (h1 : q.count ≠ 0)
    {ps : List ℕ} {pid : ℕ} (h3 : q.waitingProducers = ps ++ [pid])
    (tid : ℕ) :
    dequeueStep q tid =
      ⟨{ (removeFromBuffer q).1 with waitingProducers := ps },
        .deqDone (removeFromBuffer q).2, some pid,
        .pop (removeFromBuffer q).2⟩ := by
  have hl := (removeFromBuffer_lists h1).2.1
  rw [dequeueStep]
  rw [if_neg (by simp [h1]), if_neg (by simp [h1])]
  simp [hl, h3, List.getLast?_concat]

/-- `closed` is monotone: no step ever resets it. -/
theorem Step.closed_mono {c : Config} {l : Label} {c2 : Config}
    (h : Step c l c2) (hcl : c.q.closed = true) : c2.q.closed = true := by
  cases h with
  | enq item =>
    show (enqueueStep c.q c.tasks.length item).q.closed = true
    rw [enqueueStep_closed]; exact hcl
  | deq =>
    show (dequeueStep c.q c.tasks.length).q.closed = true
    rw [dequeueStep_closed]; exact hcl
  | close => rfl
  | resumeEnq tid item h =>
    show (enqueueStep c.q tid item).q.closed = true
    rw [enqueueStep_closed]; exact hcl
  | resumeDeq tid h =>
    show (dequeueStep c.q tid).q.closed = true
    rw [dequeueStep_closed]; exact hcl

/-! ### The capacity bound -/

theorem enqueueStep_count_le {C : ℕ} {q : QState} (hmax : q.maxSize = (C : ℚ))
    (hle : q.count ≤ C) (tid : ℕ) (item : Val) :
    (enqueueStep q tid item).q.count ≤ C := by
  by_cases hc : q.closed = true
  · rw [enqueueStep_eq_closed hc]
    exact hle
  · have hc' : q.closed = false := by simpa using hc
    by_cases hf : q.maxSize ≤ (q.count : ℚ)
    · rw [enqueueStep_eq_wait hc' hf]
      exact hle
    · have hlt : q.count < C := by
        rw [hmax] at hf
        exact_mod_cast not_le.mp hf
      rcases List.eq_nil_or_concat q.waitingConsumers with hnil | ⟨cs, cid, hcc⟩
      · rw [enqueueStep_eq_add_quiet hc' hf hnil]
        exact hlt
      · rw [List.concat_eq_append] at hcc
        rw [enqueueStep_eq_add_wake hc' hf hcc]
        exact hlt

theorem dequeueStep_count_le (q : QState) (tid : ℕ) :
    (dequeueStep q tid).q.count ≤ q.count := by
  by_cases h0 : q.count = 0
  · by_cases hc : q.closed = true
    · rw [dequeueStep_eq_end h0 hc]
    · have hc' : q.closed = false := by simpa using hc
      rw [dequeueStep_eq_wait h0 hc']
  · have hcount := (removeFromBuffer_lists h0).2.2.2.2
    rcases List.eq_nil_or_concat q.waitingProducers with hnil | ⟨ps, pid, hpp⟩
    · rw [dequeueStep_eq_pop_quiet h0 hnil]
      rw [hcount]
      exact Nat.sub_le _ _
    · rw [List.concat_eq_append] at hpp
      rw [dequeueStep_eq_pop_wake h0 hpp]
      show (removeFromBuffer q).1.count ≤ q.count
      rw [hcount]
      exact Nat.sub_le _ _

theorem step_count {C : ℕ} {c : Config} {l : Label} {c2 : Config}
    (hs : Step c l c2) (hmax : c.q.maxSize = (C : ℚ)) (hle : c.q.count ≤ C) :
    c2.q.maxSize = (C : ℚ) ∧ c2.q.count ≤ C := by
  cases hs with
  | enq item =>
    exact ⟨(enqueueStep_maxSize c.q c.tasks.length item).trans hmax,
      enqueueStep_count_le hmax hle _ _⟩
  | deq =>
    exact ⟨(dequeueStep_maxSize c.q c.tasks.length).trans hmax,
      le_trans (dequeueStep_count_le c.q c.tasks.length) hle⟩
  | close => exact ⟨hmax, hle⟩
  | resumeEnq tid item hres =>
    exact ⟨(enqueueStep_maxSize c.q tid item).trans hmax,
      enqueueStep_count_le hmax hle _ _⟩
  | resumeDeq tid hres =>
    exact ⟨(dequeueStep_maxSize c.q tid).trans hmax,
      le_trans (dequeueStep_count_le c.q tid) hle⟩

/-- Reachable states respect the user-requested integer capacity: the
live item count never exceeds `C`. -/
theorem reach_count {C : ℕ} {q0 : QState} (hq0 : mkQueue (C : ℚ) = some q0)
    {ls : List Label} {c : Config} (htr : Traces ⟨q0, []⟩ ls c) :
    c.q.maxSize = (C : ℚ) ∧ c.q.count ≤ C := by
  induction htr with
  | nil =>
    obtain ⟨hmax, _, _, hcount, _⟩ := mkQueue_fields hq0
    exact ⟨hmax, by rw [hcount]; exact Nat.zero_le C⟩
  | snoc h hs ih => exact step_count hs ih.1 ih.2

/-! ### Preservation of the waiter-bookkeeping invariant -/

theorem get?_append_task {ts : List TaskState} {t : TaskState} {tid : ℕ}
    {u : TaskState} (h : ts.get? tid = some u) :
    (ts ++ [t]).get? tid = some u := by
  rw [List.get?_append (get?_lt h)]
  exact h

theorem get?_set_task {ts : List TaskState} {t : TaskState} {tid tid2 : ℕ}
    {u : TaskState} (hne : tid ≠ tid2) (h : ts.get? tid2 = some u) :
    (ts.set tid t).get? tid2 = some u := by
  rw [List.get?_set_ne _ _ hne]
  exact h

theorem nodup_concat_of {l : List ℕ} {a : ℕ} (h : l.Nodup) (ha : a ∉ l) :
    (l ++ [a]).Nodup := by
  rw [List.nodup_append]
  refine ⟨h, List.nodup_singleton a, ?_⟩
  intro x hx hx2
  rw [List.mem_singleton] at hx2
  subst hx2
  exact ha hx

theorem step_tinv {c : Config} {l : Label} {c2 : Config}
    (hs : Step c l c2) (h : TInv c) : TInv c2 := by
  have hNC : c.tasks.length ∉ c.q.waitingConsumers := fun hm => by
    have := get?_lt (h.cons _ hm); omega
  have hNP : c.tasks.length ∉ c.q.waitingProducers := fun hm => by
    obtain ⟨v, hv⟩ := h.prods _ hm
    have := get?_lt hv; omega
  cases hs with
  | enq item =>
    by_cases hc : c.q.closed = true
    · simp only [doEnqueueCall, enqueueStep_eq_closed hc, applyWake]
      exact ⟨fun tid hm => get?_append_task (h.cons tid hm),
        fun tid hm => (h.prods tid hm).imp fun v hv => get?_append_task hv,
        h.consND, h.prodND, h.closedEmpty⟩
    · have hc' : c.q.closed = false := by simpa using hc
      by_cases hf : c.q.maxSize ≤ (c.q.count : ℚ)
      · simp only [doEnqueueCall, enqueueStep_eq_wait hc' hf, applyWake]
        refine ⟨fun tid hm => get?_append_task (h.cons tid hm), ?_, h.consND,
          nodup_concat_of h.prodND hNP, fun hcl => by simp [hc'] at hcl⟩
        intro tid hm
        rcases List.mem_append.mp hm with hm | hm
        · exact (h.prods tid hm).imp fun v hv => get?_append_task hv
        · rw [List.mem_singleton] at hm
          subst hm
          exact ⟨item, List.get?_concat_length _ _⟩
      · rcases List.eq_nil_or_concat c.q.waitingConsumers with hnil | ⟨cs, cid, hcc⟩
        rotate_left
        rw [List.concat_eq_append] at hcc
        rotate_right
        · simp only [doEnqueueCall, enqueueStep_eq_add_quiet hc' hf hnil,
            applyWake]
          refine ⟨fun tid hm => get?_append_task (h.cons tid hm),
            fun tid hm => (h.prods tid hm).imp fun v hv => get?_append_task hv,
            h.consND, h.prodND, fun hcl => by simp [addToBuffer, hc'] at hcl⟩
        · simp only [doEnqueueCall, enqueueStep_eq_add_wake hc' hf hcc,
            applyWake]
          have hcidmem : cid ∈ c.q.waitingConsumers := by
            rw [hcc]; exact List.mem_append_right _ (List.mem_singleton_self _)
          have hcid : c.tasks.get? cid = some .deqWaiting := h.cons cid hcidmem
          have hnd := List.nodup_append.mp (hcc ▸ h.consND)
          have hcidcs : cid ∉ cs := fun hm => hnd.2.2 hm (by simp)
          refine ⟨?_, ?_, hnd.1, h.prodND,
            fun hcl => by simp [addToBuffer, hc'] at hcl⟩
          · intro tid hm
            have htid : tid ∈ c.q.waitingConsumers := by
              rw [hcc]; exact List.mem_append_left _ hm
            have hne : cid ≠ tid := fun e => hcidcs (e ▸ hm)
            show (wakeTask (c.tasks ++ [.enqDone true]) cid).get? tid = _
            rw [wakeTask_get?_ne hne]
            exact get?_append_task (h.cons tid htid)
          · intro tid hm
            obtain ⟨v, hv⟩ := h.prods tid hm
            have hne : cid ≠ tid := fun e => by
              have := hv.symm.trans (e ▸ hcid)
              simp at this
            refine ⟨v, ?_⟩
            show (wakeTask (c.tasks ++ [.enqDone true]) cid).get? tid = _
            rw [wakeTask_get?_ne hne]
            exact get?_append_task hv
  | deq =>
    by_cases h0 : c.q.count = 0
    · by_cases hc : c.q.closed = true
      · simp only [doDequeueCall, dequeueStep_eq_end h0 hc, applyWake]
        exact ⟨fun tid hm => get?_append_task (h.cons tid hm),
          fun tid hm => (h.prods tid hm).imp fun v hv => get?_append_task hv,
          h.consND, h.prodND, h.closedEmpty⟩
      · have hc' : c.q.closed = false := by simpa using hc
        simp only [doDequeueCall, dequeueStep_eq_wait h0 hc', applyWake]
        refine ⟨?_, fun tid hm => (h.prods tid hm).imp fun v hv =>
          get?_append_task hv, nodup_concat_of h.consND hNC, h.prodND,
          fun hcl => by simp [hc'] at hcl⟩
        intro tid hm
        rcases List.mem_append.mp hm with hm | hm
        · exact get?_append_task (h.cons tid hm)
        · rw [List.mem_singleton] at hm
          subst hm
          exact List.get?_concat_length _ _
    · have hrem := removeFromBuffer_lists h0
      have hclrem : (removeFromBuffer c.q).1.closed = c.q.closed := hrem.2.2.1
      rcases List.eq_nil_or_concat c.q.waitingProducers with hnil | ⟨ps, pid, hpp⟩
      rotate_left
      rw [List.concat_eq_append] at hpp
      rotate_right
      · simp only [doDequeueCall, dequeueStep_eq_pop_quiet h0 hnil, applyWake]
        refine ⟨?_, ?_, ?_, ?_, ?_⟩
        · intro tid hm
          rw [hrem.1] at hm
          exact get?_append_task (h.cons tid hm)
        · intro tid hm
          rw [hrem.2.1] at hm
          exact (h.prods tid hm).imp fun v hv => get?_append_task hv
        · rw [hrem.1]; exact h.consND
        · rw [hrem.2.1]; exact h.prodND
        · intro hcl
          rw [hclrem] at hcl
          rw [hrem.1, hrem.2.1]
          exact h.closedEmpty hcl
      · simp only [doDequeueCall, dequeueStep_eq_pop_wake h0 hpp, applyWake]
        have hpidmem : pid ∈ c.q.waitingProducers := by
          rw [hpp]; exact List.mem_append_right _ (List.mem_singleton_self _)
        obtain ⟨v0, hpid⟩ := h.prods pid hpidmem
        have hnd := List.nodup_append.mp (hpp ▸ h.prodND)
        have hpidps : pid ∉ ps := fun hm => hnd.2.2 hm (by simp)
        refine ⟨?_, ?_, ?_, hnd.1, ?_⟩
        · intro tid hm
          rw [show ({ (removeFromBuffer c.q).1 with
              waitingProducers := ps } : QState).waitingConsumers =
            (removeFromBuffer c.q).1.waitingConsumers from rfl, hrem.1] at hm
          have hne : pid ≠ tid := fun e => by
            have := (h.cons tid hm).symm.trans (e ▸ hpid)
            simp at this
          show (wakeTask (c.tasks ++ [.deqDone _]) pid).get? tid = _
          rw [wakeTask_get?_ne hne]
          exact get?_append_task (h.cons tid hm)
        · intro tid hm
          have htid : tid ∈ c.q.waitingProducers := by
            rw [hpp]; exact List.mem_append_left _ hm
          obtain ⟨v, hv⟩ := h.prods tid htid
          have hne : pid ≠ tid := fun e => hpidps (e ▸ hm)
          refine ⟨v, ?_⟩
          show (wakeTask (c.tasks ++ [.deqDone _]) pid).get? tid = _
          rw [wakeTask_get?_ne hne]
          exact get?_append_task hv
        · rw [show ({ (removeFromBuffer c.q).1 with
              waitingProducers := ps } : QState).waitingConsumers =
            (removeFromBuffer c.q).1.waitingConsumers from rfl, hrem.1]
          exact h.consND
        · intro hcl
          rw [show ({ (removeFromBuffer c.q).1 with
              waitingProducers := ps } : QState).closed =
            (removeFromBuffer c.q).1.closed from rfl, hclrem] at hcl
          exact absurd ((h.closedEmpty hcl).2.symm.trans hpp) (by simp)
  | close =>
    refine ⟨?_, ?_, List.nodup_nil, List.nodup_nil, fun _ => ⟨rfl, rfl⟩⟩
    · intro tid hm
      cases hm
    · intro tid hm
      cases hm
  | resumeEnq tid item hres =>
    have hnotC : tid ∉ c.q.waitingConsumers := fun hm => by
      have := (h.cons tid hm).symm.trans hres
      simp at this
    have hnotP : tid ∉ c.q.waitingProducers := fun hm => by
      obtain ⟨v, hv⟩ := h.prods tid hm
      have := hv.symm.trans hres
      simp at this
    by_cases hc : c.q.closed = true
    · simp only [doEnqueueResume, enqueueStep_eq_closed hc, applyWake]
      refine ⟨?_, ?_, h.consND, h.prodND, fun hcl => h.closedEmpty hcl⟩
      · intro tid2 hm
        rw [(h.closedEmpty hc).1] at hm
        cases hm
      · intro tid2 hm
        rw [(h.closedEmpty hc).2] at hm
        cases hm
    · have hc' : c.q.closed = false := by simpa using hc
      by_cases hf : c.q.maxSize ≤ (c.q.count : ℚ)
      · simp only [doEnqueueResume, enqueueStep_eq_wait hc' hf, applyWake]
        refine ⟨?_, ?_, h.consND, nodup_concat_of h.prodND hnotP,
          fun hcl => by simp [hc'] at hcl⟩
        · intro tid2 hm
          have hne : tid ≠ tid2 := fun e => hnotC (e ▸ hm)
          exact get?_set_task hne (h.cons tid2 hm)
        · intro tid2 hm
          rcases List.mem_append.mp hm with hm | hm
          · have hne : tid ≠ tid2 := fun e => hnotP (e ▸ hm)
            exact (h.prods tid2 hm).imp fun v hv => get?_set_task hne hv
          · rw [List.mem_singleton] at hm
            subst hm
            exact ⟨item, List.get?_set_eq_of_lt _ (get?_lt hres)⟩
      · rcases List.eq_nil_or_concat c.q.waitingConsumers with hnil | ⟨cs, cid, hcc⟩
        rotate_left
        rw [List.concat_eq_append] at hcc
        rotate_right
        · simp only [doEnqueueResume, enqueueStep_eq_add_quiet hc' hf hnil,
            applyWake]
          refine ⟨?_, ?_, h.consND, h.prodND,
            fun hcl => by simp [addToBuffer, hc'] at hcl⟩
          · intro tid2 hm
            have hne : tid ≠ tid2 := fun e => hnotC (e ▸ hm)
            exact get?_set_task hne (h.cons tid2 hm)
          · intro tid2 hm
            have hne : tid ≠ tid2 := fun e => hnotP (e ▸ hm)
            exact (h.prods tid2 hm).imp fun v hv => get?_set_task hne hv
        · simp only [doEnqueueResume, enqueueStep_eq_add_wake hc' hf hcc,
            applyWake]
          have hcidmem : cid ∈ c.q.waitingConsumers := by
            rw [hcc]; exact List.mem_append_right _ (List.mem_singleton_self _)
          have hcid : c.tasks.get? cid = some .deqWaiting := h.cons cid hcidmem
          have hnd := List.nodup_append.mp (hcc ▸ h.consND)
          have hcidcs : cid ∉ cs := fun hm => hnd.2.2 hm (by simp)
          refine ⟨?_, ?_, hnd.1, h.prodND,
            fun hcl => by simp [addToBuffer, hc'] at hcl⟩
          · intro tid2 hm
            have htid2 : tid2 ∈ c.q.waitingConsumers := by
              rw [hcc]; exact List.mem_append_left _ hm
            have hne : cid ≠ tid2 := fun e => hcidcs (e ▸ hm)
            have hne2 : tid ≠ tid2 := fun e => hnotC (e ▸ htid2)
            show (wakeTask (c.tasks.set tid (.enqDone true)) cid).get? tid2 = _
            rw [wakeTask_get?_ne hne]
            exact get?_set_task hne2 (h.cons tid2 htid2)
          · intro tid2 hm
            obtain ⟨v, hv⟩ := h.prods tid2 hm
            have hne : cid ≠ tid2 := fun e => by
              have := hv.symm.trans (e ▸ hcid)
              simp at this
            have hne2 : tid ≠ tid2 := fun e => hnotP (e ▸ hm)
            refine ⟨v, ?_⟩
            show (wakeTask (c.tasks.set tid (.enqDone true)) cid).get? tid2 = _
            rw [wakeTask_get?_ne hne]
            exact get?_set_task hne2 hv
  | resumeDeq tid hres =>
    have hnotC : tid ∉ c.q.waitingConsumers := fun hm => by
      have := (h.cons tid hm).symm.trans hres
      simp at this
    have hnotP : tid ∉ c.q.waitingProducers := fun hm => by
      obtain ⟨v, hv⟩ := h.prods tid hm
      have := hv.symm.trans hres
      simp at this
    by_cases h0 : c.q.count = 0
    · by_cases hc : c.q.closed = true
      · simp only [doDequeueResume, dequeueStep_eq_end h0 hc, applyWake]
        refine ⟨?_, ?_, h.consND, h.prodND, fun hcl => h.closedEmpty hcl⟩
        · intro tid2 hm
          rw [(h.closedEmpty hc).1] at hm
          cases hm
        · intro tid2 hm
          rw [(h.closedEmpty hc).2] at hm
          cases hm
      · have hc' : c.q.closed = false := by simpa using hc
        simp only [doDequeueResume, dequeueStep_eq_wait h0 hc', applyWake]
        refine ⟨?_, ?_, nodup_concat_of h.consND hnotC, h.prodND,
          fun hcl => by simp [hc'] at hcl⟩
        · intro tid2 hm
          rcases List.mem_append.mp hm with hm | hm
          · have hne : tid ≠ tid2 := fun e => hnotC (e ▸ hm)
            exact get?_set_task hne (h.cons tid2 hm)
          · rw [List.mem_singleton] at hm
            subst hm
            exact List.get?_set_eq_of_lt _ (get?_lt hres)
        · intro tid2 hm
          have hne : tid ≠ tid2 := fun e => hnotP (e ▸ hm)
          exact (h.prods tid2 hm).imp fun v hv => get?_set_task hne hv
    · have hrem := removeFromBuffer_lists h0
      have hclrem : (removeFromBuffer c.q).1.closed = c.q.closed := hrem.2.2.1
      rcases List.eq_nil_or_concat c.q.waitingProducers with hnil | ⟨ps, pid, hpp⟩
      rotate_left
      rw [List.concat_eq_append] at hpp
      rotate_right
      · simp only [doDequeueResume, dequeueStep_eq_pop_quiet h0 hnil, applyWake]
        refine ⟨?_, ?_, ?_, ?_, ?_⟩
        · intro tid2 hm
          rw [hrem.1] at hm
          have hne : tid ≠ tid2 := fun e => hnotC (e ▸ hm)
          exact get?_set_task hne (h.cons tid2 hm)
        · intro tid2 hm
          rw [hrem.2.1] at hm
          have hne : tid ≠ tid2 := fun e => hnotP (e ▸ hm)
          exact (h.prods tid2 hm).imp fun v hv => get?_set_task hne hv
        · rw [hrem.1]; exact h.consND
        · rw [hrem.2.1]; exact h.prodND
        · intro hcl
          rw [hclrem] at hcl
          rw [hrem.1, hrem.2.1]
          exact h.closedEmpty hcl
      · simp only [doDequeueResume, dequeueStep_eq_pop_wake h0 hpp, applyWake]
        have hpidmem : pid ∈ c.q.waitingProducers := by
          rw [hpp]; exact List.mem_append_right _ (List.mem_singleton_self _)
        obtain ⟨v0, hpid⟩ := h.prods pid hpidmem
        have hnd := List.nodup_append.mp (hpp ▸ h.prodND)
        have hpidps : pid ∉ ps := fun hm => hnd.2.2 hm (by simp)
        refine ⟨?_, ?_, ?_, hnd.1, ?_⟩
        · intro tid2 hm
          rw [show ({ (removeFromBuffer c.q).1 with
              waitingProducers := ps } : QState).waitingConsumers =
            (removeFromBuffer c.q).1.waitingConsumers from rfl, hrem.1] at hm
          have hne : pid ≠ tid2 := fun e => by
            have := (h.cons tid2 hm).symm.trans (e ▸ hpid)
            simp at this
          have hne2 : tid ≠ tid2 := fun e => hnotC (e ▸ hm)
          show (wakeTask (c.tasks.set tid (.deqDone _)) pid).get? tid2 = _
          rw [wakeTask_get?_ne hne]
          exact get?_set_task hne2 (h.cons tid2 hm)
        · intro tid2 hm
          have htid2 : tid2 ∈ c.q.waitingProducers := by
            rw [hpp]; exact List.mem_append_left _ hm
          obtain ⟨v, hv⟩ := h.prods tid2 htid2
          have hne : pid ≠ tid2 := fun e => hpidps (e ▸ hm)
          have hne2 : tid ≠ tid2 := fun e => hnotP (e ▸ htid2)
          refine ⟨v, ?_⟩
          show (wakeTask (c.tasks.set tid (.deqDone _)) pid).get? tid2 = _
          rw [wakeTask_get?_ne hne]
          exact get?_set_task hne2 hv
        · rw [show ({ (removeFromBuffer c.q).1 with
              waitingProducers := ps } : QState).waitingConsumers =
            (removeFromBuffer c.q).1.waitingConsumers from rfl, hrem.1]
          exact h.consND
        · intro hcl
          rw [show ({ (removeFromBuffer c.q).1 with
              waitingProducers := ps } : QState).closed =
            (removeFromBuffer c.q).1.closed from rfl, hclrem] at hcl
          exact absurd ((h.closedEmpty hcl).2.symm.trans hpp) (by simp)

/-- All reachable configurations satisfy the waiter-bookkeeping
invariant, for every successfully constructed queue. -/
theorem reach_tinv {m : ℚ} {q0 : QState} (hq0 : mkQueue m = some q0)
    {ls : List Label} {c : Config} (htr : Traces ⟨q0, []⟩ ls c) : TInv c := by
  induction htr with
  | nil =>
    obtain ⟨_, _, _, _, hWC, hWP, hcl, _⟩ := mkQueue_fields hq0
    refine ⟨?_, ?_, ?_, ?_, ?_⟩
    · intro tid hm
      rw [hWC] at hm
      cases hm
    · intro tid hm
      rw [hWP] at hm
      cases hm
    · rw [hWC]; exact List.nodup_nil
    · rw [hWP]; exact List.nodup_nil
    · intro hcl2
      rw [hcl] at hcl2
      cases hcl2
  | snoc h hs ih => exact step_tinv hs ih

/-! ### The circular buffer implements a FIFO list -/

theorem mask_eq_mod {len : ℕ} (k : ℕ) (hlen : len = 2 ^ k) (x : ℕ) :
    x &&& (len - 1) = x % len := by
  subst hlen
  exact Nat.and_pow_two_sub_one_eq_mod x k

theorem bufItems_length (q : QState) : (bufItems q).length = q.count := by
  simp [bufItems]

/-- `QInv` only constrains the buffer-related fields, so it transports
along equality of those fields. -/
theorem QInv.congr {C : ℕ} {q q2 : QState} (h : QInv C q)
    (hmax : q2.maxSize = q.maxSize) (hbuf : q2.buffer = q.buffer)
    (hhead : q2.head = q.head) (htail : q2.tail = q.tail)
    (hcount : q2.count = q.count) : QInv C q2 := by
  refine ⟨?_, h.cpos, ?_, ?_, ?_, ?_, ?_⟩
  · rw [hmax]; exact h.maxEq
  · rw [hbuf]; exact h.pow2
  · rw [hbuf]; exact h.cle
  · rw [hhead, hbuf]; exact h.headLt
  · rw [htail, hhead, hcount, hbuf]; exact h.tailEq
  · rw [hcount]; exact h.countLe

theorem bufItems_congr {q q2 : QState} (hbuf : q2.buffer = q.buffer)
    (hhead : q2.head = q.head) (hcount : q2.count = q.count) :
    bufItems q2 = bufItems q := by
  simp [bufItems, hbuf, hhead, hcount]

theorem QInv.len_pos {C : ℕ} {q : QState} (h : QInv C q) :
    0 < q.buffer.length :=
  lt_of_lt_of_le h.cpos h.cle

/-- Writing at `tail` appends to the abstract content of the buffer. -/
theorem addToBuffer_bufItems {C : ℕ} {q : QState} (h : QInv C q)
    (hlt : q.count < C) (v : Val) :
    QInv C (addToBuffer q v) ∧
    bufItems (addToBuffer q v) = bufItems q ++ [v] := by
  obtain ⟨k, hk⟩ := h.pow2
  have hlen0 : 0 < q.buffer.length := h.len_pos
  have hmask := mask_eq_mod k hk
  have htaillt : q.tail < q.buffer.length := by
    rw [h.tailEq]
    exact Nat.mod_lt _ hlen0
  have hlen' : (addToBuffer q v).buffer.length = q.buffer.length :=
    List.length_set _ _ _
  have htail' : (addToBuffer q v).tail =
      (q.head + (q.count + 1)) % q.buffer.length := by
    show (q.tail + 1) &&& (q.buffer.length - 1) = _
    rw [hmask, h.tailEq, Nat.mod_add_mod, Nat.add_assoc]
  refine ⟨?_, ?_⟩
  · refine ⟨h.maxEq, h.cpos, ⟨k, by rw [hlen', hk]⟩, ?_, ?_, ?_, hlt⟩
    · rw [hlen']; exact h.cle
    · show q.head < _
      rw [hlen']; exact h.headLt
    · show (addToBuffer q v).tail = (q.head + (q.count + 1)) % _
      rw [hlen']
      exact htail'
  · have hform : bufItems (addToBuffer q v) = (List.range (q.count + 1)).map
        (fun i => ((q.buffer.set q.tail v).get?
          ((q.head + i) % q.buffer.length)).getD none) := by
      simp [bufItems, addToBuffer]
    rw [hform, List.range_succ, List.map_append]
    congr 1
    · rw [show bufItems q = (List.range q.count).map
          (fun i => (q.buffer.get? ((q.head + i) % q.buffer.length)).getD none)
          from rfl]
      apply List.map_congr_left
      intro i hi
      rw [List.mem_range] at hi
      have hcle := h.cle
      have hne : q.tail ≠ (q.head + i) % q.buffer.length := by
        rw [h.tailEq]
        intro he
        have hmod : i % q.buffer.length = q.count % q.buffer.length :=
          (Nat.ModEq.add_left_cancel' q.head he.symm)
        rw [Nat.mod_eq_of_lt (by omega : i < q.buffer.length),
          Nat.mod_eq_of_lt (by omega : q.count < q.buffer.length)] at hmod
        omega
      rw [List.get?_set_ne v _ hne]
    · have hpos : (q.head + q.count) % q.buffer.length = q.tail := h.tailEq.symm
      simp only [List.map_cons, List.map_nil, hpos]
      rw [List.get?_set_eq_of_lt v htaillt]
      rfl

/-- Reading at `head` pops the front of the abstract content. -/
theorem removeFromBuffer_bufItems {C : ℕ} {q : QState} (h : QInv C q)
    (h0 : q.count ≠ 0) :
    QInv C (removeFromBuffer q).1 ∧
    bufItems q = (removeFromBuffer q).2 :: bufItems (removeFromBuffer q).1 := by
  obtain ⟨k, hk⟩ := h.pow2
  have hlen0 : 0 < q.buffer.length := h.len_pos
  have hmask := mask_eq_mod k hk
  obtain ⟨m, hm⟩ := Nat.exists_eq_succ_of_ne_zero h0
  have hmlt : m < q.buffer.length := by
    have := h.countLe
    have := h.cle
    omega
  have hr1 : (removeFromBuffer q).1 =
      { q with buffer := q.buffer.set q.head none
               head := (q.head + 1) &&& (q.buffer.length - 1)
               count := q.count - 1 } := by
    rw [removeFromBuffer, if_neg h0]
  have hr2 : (removeFromBuffer q).2 = (q.buffer.get? q.head).getD none := by
    rw [removeFromBuffer, if_neg h0]
    show q.buffer.getD q.head none = _
    rw [List.getD_eq_get?]
  have hlen' : (removeFromBuffer q).1.buffer.length = q.buffer.length := by
    rw [hr1]
    exact List.length_set _ _ _
  have hhead' : (removeFromBuffer q).1.head = (q.head + 1) % q.buffer.length := by
    rw [hr1]
    exact hmask _
  have hcount' : (removeFromBuffer q).1.count = m := by
    rw [hr1]
    simp [hm]
  have hbuf' : (removeFromBuffer q).1.buffer = q.buffer.set q.head none := by
    rw [hr1]
  refine ⟨?_, ?_⟩
  · refine ⟨?_, h.cpos, ⟨k, by rw [hlen', hk]⟩, ?_, ?_, ?_, ?_⟩
    · rw [hr1]; exact h.maxEq
    · rw [hlen']; exact h.cle
    · rw [hlen', hhead']
      exact Nat.mod_lt _ hlen0
    · rw [show (removeFromBuffer q).1.tail = q.tail from by rw [hr1],
        hlen', hhead', hcount', h.tailEq, Nat.mod_add_mod, hm]
      congr 1
      omega
    · rw [hcount']
      have := h.countLe
      omega
  · have hformL : bufItems q = (List.range (m + 1)).map
        (fun i => (q.buffer.get? ((q.head + i) % q.buffer.length)).getD none) := by
      rw [show bufItems q = (List.range q.count).map
        (fun i => (q.buffer.get? ((q.head + i) % q.buffer.length)).getD none)
        from rfl, hm]
    have hformR : bufItems (removeFromBuffer q).1 = (List.range m).map
        (fun i => ((q.buffer.set q.head none).get?
          (((q.head + 1) % q.buffer.length + i) % q.buffer.length)).getD none) := by
      rw [show bufItems (removeFromBuffer q).1 =
        (List.range (removeFromBuffer q).1.count).map
        (fun i => ((removeFromBuffer q).1.buffer.get?
          (((removeFromBuffer q).1.head + i) %
            (removeFromBuffer q).1.buffer.length)).getD none) from rfl,
        hcount', hlen', hhead', hbuf']
    rw [hformL, hformR, List.range_succ_eq_map, List.map_cons, List.map_map]
    congr 1
    · rw [Nat.add_zero, Nat.mod_eq_of_lt h.headLt]
      exact hr2.symm
    · apply List.map_congr_left
      intro i hi
      rw [List.mem_range] at hi
      show (q.buffer.get? ((q.head + (i + 1)) % q.buffer.length)).getD none = _
      have hidx : ((q.head + 1) % q.buffer.length + i) % q.buffer.length =
          (q.head + (i + 1)) % q.buffer.length := by
        rw [Nat.mod_add_mod]
        congr 1
        omega
      rw [hidx]
      have hne : q.head ≠ (q.head + (i + 1)) % q.buffer.length := by
        intro he
        have h1 : (q.head + 0) % q.buffer.length =
            (q.head + (i + 1)) % q.buffer.length := by
          rw [Nat.add_zero, Nat.mod_eq_of_lt h.headLt]
          exact he
        have hmod : 0 % q.buffer.length = (i + 1) % q.buffer.length :=
          Nat.ModEq.add_left_cancel' q.head h1
        rw [Nat.zero_mod, Nat.mod_eq_of_lt (by omega : i + 1 < q.buffer.length)]
          at hmod
        omega
      rw [List.get?_set_ne none _ hne]

theorem enqueueStep_binv {C : ℕ} {q : QState} (hq : QInv C q)
    (tid : ℕ) (item : Val) :
    QInv C (enqueueStep q tid item).q ∧
    bufItems q ++ pushes (enqueueStep q tid item).lab =
      pops (enqueueStep q tid item).lab ++
        bufItems (enqueueStep q tid item).q := by
  by_cases hc : q.closed = true
  · rw [enqueueStep_eq_closed hc]
    exact ⟨hq, by simp [pushes, pops]⟩
  · have hc' : q.closed = false := by simpa using hc
    by_cases hf : q.maxSize ≤ (q.count : ℚ)
    · rw [enqueueStep_eq_wait hc' hf]
      refine ⟨hq.congr rfl rfl rfl rfl rfl, ?_⟩
      simp only [pushes, pops, List.append_nil, List.nil_append]
      exact (bufItems_congr rfl rfl rfl).symm
    · have hlt : q.count < C := by
        rw [hq.maxEq] at hf
        exact_mod_cast not_le.mp hf
      obtain ⟨hinv2, hitems⟩ := addToBuffer_bufItems hq hlt item
      rcases List.eq_nil_or_concat q.waitingConsumers with hnil | ⟨cs, cid, hcc⟩
      · rw [enqueueStep_eq_add_quiet hc' hf hnil]
        exact ⟨hinv2, by simp [pushes, pops, hitems]⟩
      · rw [List.concat_eq_append] at hcc
        rw [enqueueStep_eq_add_wake hc' hf hcc]
        refine ⟨hinv2.congr rfl rfl rfl rfl rfl, ?_⟩
        simp only [pushes, pops, List.nil_append]
        rw [← hitems]
        exact (bufItems_congr rfl rfl rfl).symm

theorem dequeueStep_binv {C : ℕ} {q : QState} (hq : QInv C q) (tid : ℕ) :
    QInv C (dequeueStep q tid).q ∧
    bufItems q ++ pushes (dequeueStep q tid).lab =
      pops (dequeueStep q tid).lab ++ bufItems (dequeueStep q tid).q := by
  by_cases h0 : q.count = 0
  · by_cases hc : q.closed = true
    · rw [dequeueStep_eq_end h0 hc]
      exact ⟨hq, by simp [pushes, pops]⟩
    · have hc' : q.closed = false := by simpa using hc
      rw [dequeueStep_eq_wait h0 hc']
      refine ⟨hq.congr rfl rfl rfl rfl rfl, ?_⟩
      simp only [pushes, pops, List.append_nil, List.nil_append]
      exact (bufItems_congr rfl rfl rfl).symm
  · obtain ⟨hinv2, hitems⟩ := removeFromBuffer_bufItems hq h0
    rcases List.eq_nil_or_concat q.waitingProducers with hnil | ⟨ps, pid, hpp⟩
    · rw [dequeueStep_eq_pop_quiet h0 hnil]
      refine ⟨hinv2, ?_⟩
      simp only [pushes, pops, List.append_nil]
      rw [hitems]
      rfl
    · rw [List.concat_eq_append] at hpp
      rw [dequeueStep_eq_pop_wake h0 hpp]
      refine ⟨hinv2.congr rfl rfl rfl rfl rfl, ?_⟩
      simp only [pushes, pops, List.append_nil]
      rw [hitems, show bufItems { (removeFromBuffer q).1 with
        waitingProducers := ps } = bufItems (removeFromBuffer q).1 from
        bufItems_congr rfl rfl rfl]
      rfl

theorem step_binv {C : ℕ} {c : Config} {l : Label} {c2 : Config}
    (hs : Step c l c2) (hq : QInv C c.q) :
    QInv C c2.q ∧ bufItems c.q ++ pushes l = pops l ++ bufItems c2.q := by
  cases hs with
  | enq item => exact enqueueStep_binv hq _ _
  | deq => exact dequeueStep_binv hq _
  | close =>
    refine ⟨hq.congr rfl rfl rfl rfl rfl, ?_⟩
    simp only [pushes, pops, List.append_nil, List.nil_append]
    exact (bufItems_congr rfl rfl rfl).symm
  | resumeEnq tid item hres => exact enqueueStep_binv hq _ _
  | resumeDeq tid hres => exact dequeueStep_binv hq _

theorem acceptedOf_append (ls ls' : List Label) :
    acceptedOf (ls ++ ls') = acceptedOf ls ++ acceptedOf ls' := by
  induction ls with
  | nil => rfl
  | cons l ls ih => simp [acceptedOf, ih]

theorem deliveredOf_append (ls ls' : List Label) :
    deliveredOf (ls ++ ls') = deliveredOf ls ++ deliveredOf ls' := by
  induction ls with
  | nil => rfl
  | cons l ls ih => simp [deliveredOf, ih]

theorem acceptedOf_singleton (l : Label) : acceptedOf [l] = pushes l := by
  simp [acceptedOf]

theorem deliveredOf_singleton (l : Label) : deliveredOf [l] = pops l := by
  simp [deliveredOf]

/-- A successful construction forces `1 ≤ maxSize`; in particular an
integer capacity is at least 1. -/
theorem mkQueue_cpos {C : ℕ} {q0 : QState}
    (hq0 : mkQueue (C : ℚ) = some q0) : 1 ≤ C := by
  rcases Nat.eq_zero_or_pos C with rfl | h
  · rw [show ((0 : ℕ) : ℚ) = 0 from rfl, mkQueue, if_pos (by norm_num)] at hq0
    cases hq0
  · exact h

/-- Master refinement invariant for integer capacities whose rounding
does not overflow: the buffer shape invariant holds in every reachable
configuration, and the items accepted along the trace are exactly the
delivered items followed by the current buffer content — item delivery
is FIFO in acceptance order. -/
theorem reach_binv {C : ℕ} (h30 : C ≤ 2 ^ 30) {q0 : QState}
    (hq0 : mkQueue (C : ℚ) = some q0) {ls : List Label} {c : Config}
    (htr : Traces ⟨q0, []⟩ ls c) :
    QInv C c.q ∧ acceptedOf ls = deliveredOf ls ++ bufItems c.q := by
  have h1 : 1 ≤ C := mkQueue_cpos hq0
  have hqeq : q0 = ⟨(C : ℚ), List.replicate (2 ^ Nat.size (C - 1)) none,
      0, 0, 0, [], [], false⟩ := by
    have h' := mkQueue_int C h1 h30
    rw [hq0] at h'
    exact Option.some.inj h'
  induction htr with
  | nil =>
    subst hqeq
    refine ⟨⟨rfl, h1, ⟨Nat.size (C - 1), by simp⟩, ?_, ?_, ?_, ?_⟩, ?_⟩
    · have := Nat.lt_size_self (C - 1)
      simp only [List.length_replicate]
      omega
    · simp only [List.length_replicate]
      positivity
    · simp
    · exact Nat.zero_le C
    · simp [acceptedOf, deliveredOf, bufItems]
  | snoc h hs ih =>
    obtain ⟨hq, hacc⟩ := ih
    obtain ⟨hq2, hstep⟩ := step_binv hs hq
    refine ⟨hq2, ?_⟩
    rw [acceptedOf_append, deliveredOf_append, hacc, acceptedOf_singleton,
      deliveredOf_singleton, List.append_assoc, hstep, ← List.append_assoc]

/-! ### The close sweep -/

theorem resumeIds_get?_not_mem {ts : List TaskState} {ids : List ℕ} {tid : ℕ}
    (h : tid ∉ ids) : (resumeIds ts ids).get? tid = ts.get? tid := by
  induction ids generalizing ts with
  | nil => rfl
  | cons a ids ih =>
    have hne : a ≠ tid := fun e => h (e ▸ List.mem_cons_self a ids)
    show (resumeIds (wakeTask ts a) ids).get? tid = _
    rw [ih (fun hm => h (List.mem_cons_of_mem a hm)), wakeTask_get?_ne hne]

theorem resumeIds_get?_mem {ts : List TaskState} {ids : List ℕ} {tid : ℕ}
    {t : TaskState} (hnd : ids.Nodup) (hm : tid ∈ ids)
    (h : ts.get? tid = some t) :
    (resumeIds ts ids).get? tid = some (resumeTask t) := by
  induction ids generalizing ts with
  | nil => cases hm
  | cons a ids ih =>
    by_cases he : a = tid
    · subst he
      have hnotin : a ∉ ids := (List.nodup_cons.mp hnd).1
      show (resumeIds (wakeTask ts a) ids).get? a = _
      rw [resumeIds_get?_not_mem hnotin, wakeTask_get?_self h]
    · have hm2 : tid ∈ ids := by
        rcases List.mem_cons.mp hm with he2 | hm2
        · exact absurd he2.symm he
        · exact hm2
      show (resumeIds (wakeTask ts a) ids).get? tid = _
      exact ih (List.nodup_cons.mp hnd).2 hm2
        (by rw [wakeTask_get?_ne he]; exact h)

/-! ### Draining a closed queue -/

/-- On a closed queue with no waiting producers, `count` consecutive
`dequeue` calls return exactly the buffer content in order and leave the
queue empty and closed. -/
theorem deqN_closed {C : ℕ} {q : QState} (hq : QInv C q)
    (hcl : q.closed = true) (hprod : q.waitingProducers = []) :
    (deqN q q.count).2 = bufItems q ∧
    (deqN q q.count).1.count = 0 ∧ (deqN q q.count).1.closed = true := by
  generalize hn : q.count = n
  induction n generalizing q with
  | zero =>
    refine ⟨?_, by simp [deqN, hn], by simp [deqN, hcl]⟩
    have : bufItems q = [] :=
      List.length_eq_zero.mp (by rw [bufItems_length, hn])
    simp [deqN, this]
  | succ n ih =>
    have h0 : q.count ≠ 0 := by omega
    obtain ⟨hinv1, hitems⟩ := removeFromBuffer_bufItems hq h0
    have hds := dequeueStep_eq_pop_quiet h0 hprod 0
    have hsync : dequeueSync q =
        some ((removeFromBuffer q).1, (removeFromBuffer q).2) := by
      rw [dequeueSync, hds]
    have hrem := removeFromBuffer_lists h0
    have hcl1 : (removeFromBuffer q).1.closed = true := by
      rw [hrem.2.2.1]; exact hcl
    have hprod1 : (removeFromBuffer q).1.waitingProducers = [] := by
      rw [hrem.2.1]; exact hprod
    have hcount1 : (removeFromBuffer q).1.count = n := by
      rw [hrem.2.2.2.2]; omega
    obtain ⟨ih1, ih2, ih3⟩ := ih hinv1 hcl1 hprod1 hcount1
    rw [hn] at *
    have hstep : deqN q (n + 1) = ((deqN (removeFromBuffer q).1 n).1,
        (removeFromBuffer q).2 :: (deqN (removeFromBuffer q).1 n).2) := by
      rw [deqN, hsync]
    rw [hstep]
    refine ⟨?_, ih2, ih3⟩
    show (removeFromBuffer q).2 :: (deqN (removeFromBuffer q).1 n).2 = bufItems q
    rw [ih1]
    exact hitems.symm

/-- Every `dequeue` on a closed drained queue returns the end-of-stream
marker and changes nothing. -/
theorem deqN_drained {q : QState} (hcl : q.closed = true)
    (h0 : q.count = 0) (m : ℕ) :
    (deqN q m).2 = List.replicate m none ∧ (deqN q m).1 = q := by
  induction m with
  | zero => exact ⟨rfl, rfl⟩
  | succ m ih =>
    have hds := dequeueStep_eq_end h0 hcl 0
    have hsync : dequeueSync q = some (q, none) := by
      rw [dequeueSync, hds]
    rw [show deqN q (m + 1) = ((deqN q m).1, none :: (deqN q m).2) from by
      rw [deqN, hsync]]
    exact ⟨by rw [ih.1]; rfl, ih.2⟩

/-! ### Soundness and invariants of the scheduled machine -/

theorem applyWakeS_config (q2 : QState) (ts : List TaskState)
    (mq : List MEntry) (b : Bool) (w : Option ℕ) :
    (⟨(applyWakeS ⟨q2, ts, mq⟩ b w).q, (applyWakeS ⟨q2, ts, mq⟩ b w).tasks⟩ :
      Config) = ⟨q2, applyWake ts w⟩ := by
  cases w <;> rfl

/-- Every scheduled step projects to a step of the unconstrained
machine: the microtask queue only restricts which resumption may run
next, never what a segment does. -/
theorem sStep_project {c c2 : SConfig} (h : SStep c c2) :
    ∃ l, Step ⟨c.q, c.tasks⟩ l ⟨c2.q, c2.tasks⟩ := by
  cases h with
  | enq item =>
    refine ⟨(doEnqueueCall ⟨c.q, c.tasks⟩ item).2, ?_⟩
    rw [show (⟨(sEnqueueCall c item).q, (sEnqueueCall c item).tasks⟩ :
      Config) = (doEnqueueCall ⟨c.q, c.tasks⟩ item).1 from
      applyWakeS_config _ _ _ _ _]
    exact Step.enq ⟨c.q, c.tasks⟩ item
  | deq =>
    refine ⟨(doDequeueCall ⟨c.q, c.tasks⟩).2, ?_⟩
    rw [show (⟨(sDequeueCall c).q, (sDequeueCall c).tasks⟩ : Config) =
      (doDequeueCall ⟨c.q, c.tasks⟩).1 from applyWakeS_config _ _ _ _ _]
    exact Step.deq ⟨c.q, c.tasks⟩
  | close =>
    exact ⟨.tau, Step.close ⟨c.q, c.tasks⟩⟩
  | runEnq e rest item hq h =>
    refine ⟨(doEnqueueResume ⟨c.q, c.tasks⟩ e.tid item).2, ?_⟩
    rw [show (⟨(sResumeEnq c e.tid rest item).q,
      (sResumeEnq c e.tid rest item).tasks⟩ : Config) =
      (doEnqueueResume ⟨c.q, c.tasks⟩ e.tid item).1 from
      applyWakeS_config _ _ _ _ _]
    exact Step.resumeEnq ⟨c.q, c.tasks⟩ e.tid item h
  | runDeq e rest hq h =>
    refine ⟨(doDequeueResume ⟨c.q, c.tasks⟩ e.tid).2, ?_⟩
    rw [show (⟨(sResumeDeq c e.tid rest).q, (sResumeDeq c e.tid rest).tasks⟩ :
      Config) = (doDequeueResume ⟨c.q, c.tasks⟩ e.tid).1 from
      applyWakeS_config _ _ _ _ _]
    exact Step.resumeDeq ⟨c.q, c.tasks⟩ e.tid h

theorem sStep_tinv {c c2 : SConfig} (hs : SStep c c2)
    (ht : TInv ⟨c.q, c.tasks⟩) : TInv ⟨c2.q, c2.tasks⟩ := by
  obtain ⟨l, hl⟩ := sStep_project hs
  exact step_tinv hl ht

theorem sStep_closed_mono {c c2 : SConfig} (hs : SStep c c2)
    (hcl : c.q.closed = true) : c2.q.closed = true := by
  obtain ⟨l, hl⟩ := sStep_project hs
  exact hl.closed_mono hcl

theorem sReach_trans {c c1 c2 : SConfig} (h1 : SReach c c1)
    (h2 : SReach c1 c2) : SReach c c2 := by
  induction h2 with
  | refl => exact h1
  | tail h hs ih => exact SReach.tail ih hs

theorem sReach_closed_mono {c c2 : SConfig} (h : SReach c c2)
    (hcl : c.q.closed = true) : c2.q.closed = true := by
  induction h with
  | refl => exact hcl
  | tail h hs ih => exact sStep_closed_mono hs ih

theorem dCount_cons (e : MEntry) (l : List MEntry) :
    dCount (e :: l) = (if e.isCons = true then 1 else 0) + dCount l := rfl

theorem uCount_cons (e : MEntry) (l : List MEntry) :
    uCount (e :: l) =
      (if e.isCons = true ∧ e.byClose = false then 1 else 0) + uCount l := rfl

theorem dCount_append (l l2 : List MEntry) :
    dCount (l ++ l2) = dCount l + dCount l2 := by
  induction l with
  | nil =>
    show dCount l2 = 0 + dCount l2
    omega
  | cons e l ih =>
    rw [List.cons_append, dCount_cons, dCount_cons, ih]
    omega

theorem uCount_append (l l2 : List MEntry) :
    uCount (l ++ l2) = uCount l + uCount l2 := by
  induction l with
  | nil =>
    show uCount l2 = 0 + uCount l2
    omega
  | cons e l ih =>
    rw [List.cons_append, uCount_cons, uCount_cons, ih]
    omega

theorem dCount_snoc_cons (l : List MEntry) (t : ℕ) (b : Bool) :
    dCount (l ++ [⟨t, true, b⟩]) = dCount l + 1 := by
  rw [dCount_append]
  rfl

theorem dCount_snoc_prod (l : List MEntry) (t : ℕ) (b : Bool) :
    dCount (l ++ [⟨t, false, b⟩]) = dCount l := by
  rw [dCount_append]
  rfl

theorem uCount_eq_zero {l : List MEntry}
    (h : ∀ e ∈ l, ¬(e.isCons = true ∧ e.byClose = false)) : uCount l = 0 := by
  induction l with
  | nil => rfl
  | cons e l ih =>
    rw [uCount_cons, if_neg (h e (List.mem_cons_self e l)),
      ih fun e2 hm => h e2 (List.mem_cons_of_mem e hm)]

theorem uCount_eq_dCount {l : List MEntry}
    (h : ∀ e ∈ l, e.byClose = false) : uCount l = dCount l := by
  induction l with
  | nil => rfl
  | cons e l ih =>
    rw [uCount_cons, dCount_cons,
      ih fun e2 hm => h e2 (List.mem_cons_of_mem e hm)]
    congr 1
    by_cases hic : e.isCons = true
    · rw [if_pos ⟨hic, h e (List.mem_cons_self e l)⟩, if_pos hic]
    · rw [if_neg (fun hco => hic hco.1), if_neg hic]

theorem uCount_consMap (ids : List ℕ) :
    uCount (ids.map fun t => (⟨t, true, true⟩ : MEntry)) = 0 := by
  induction ids with
  | nil => rfl
  | cons a ids ih =>
    rw [List.map_cons, uCount_cons, ih, if_neg (by simp)]

theorem uCount_prodMap (ids : List ℕ) :
    uCount (ids.map fun t => (⟨t, false, true⟩ : MEntry)) = 0 := by
  induction ids with
  | nil => rfl
  | cons a ids ih =>
    rw [List.map_cons, uCount_cons, ih, if_neg (by simp)]

theorem map_tid_consMap (ids : List ℕ) :
    (ids.map fun t => (⟨t, true, true⟩ : MEntry)).map MEntry.tid = ids := by
  induction ids with
  | nil => rfl
  | cons a ids ih => rw [List.map_cons, List.map_cons, ih]

theorem map_tid_prodMap (ids : List ℕ) :
    (ids.map fun t => (⟨t, false, true⟩ : MEntry)).map MEntry.tid = ids := by
  induction ids with
  | nil => rfl
  | cons a ids ih => rw [List.map_cons, List.map_cons, ih]

/-- A microtask entry never refers to a task that is still suspended:
its task is resumed, so its id differs from every registered waiter. -/
theorem mtq_ne_of_task {c : SConfig} (hM : MInv c) {e : MEntry}
    (he : e ∈ c.mtq) {tid : ℕ}
    (htid : c.tasks.get? tid = some .deqWaiting ∨
      ∃ v, c.tasks.get? tid = some (.enqWaiting v)) : e.tid ≠ tid := by
  intro heq
  cases hic : e.isCons with
  | true =>
    have h1 := hM.mtqCons e he hic
    rw [heq] at h1
    rcases htid with h2 | ⟨v, h2⟩
    · have := h1.symm.trans h2
      simp at this
    · have := h1.symm.trans h2
      simp at this
  | false =>
    obtain ⟨v1, h1⟩ := hM.mtqProd e he hic
    rw [heq] at h1
    rcases htid with h2 | ⟨v, h2⟩
    · have := h1.symm.trans h2
      simp at this
    · have := h1.symm.trans h2
      simp at this

theorem countK_of_open {c2 : SConfig} (hcl : c2.q.closed = false) :
    c2.q.closed = true →
    (∃ e ∈ c2.mtq, e.isCons = true ∧ e.byClose = true) →
    c2.q.count ≤ uCount c2.mtq := by
  intro h
  rw [hcl] at h
  cases h

theorem mtqSplit_of_open {c2 : SConfig} (hcl : c2.q.closed = false)
    (hflag : ∀ e ∈ c2.mtq, e.byClose = true → c2.q.closed = true) :
    ∃ l1 l2, c2.mtq = l1 ++ l2 ∧
      (∀ e ∈ l1, ¬(e.isCons = true ∧ e.byClose = true)) ∧
      (∀ e ∈ l2, ¬(e.isCons = true ∧ e.byClose = false)) := by
  refine ⟨c2.mtq, [], (List.append_nil _).symm, ?_, ?_⟩
  · intro e hm hco
    have := hflag e hm hco.2
    rw [hcl] at this
    cases this
  · intro e hm
    cases hm

theorem mtqSplit_tail {e0 : MEntry} {rest l1 l2 : List MEntry}
    (heq : e0 :: rest = l1 ++ l2)
    (h1 : ∀ e ∈ l1, ¬(e.isCons = true ∧ e.byClose = true))
    (h2 : ∀ e ∈ l2, ¬(e.isCons = true ∧ e.byClose = false)) :
    ∃ m1 m2, rest = m1 ++ m2 ∧
      (∀ e ∈ m1, ¬(e.isCons = true ∧ e.byClose = true)) ∧
      (∀ e ∈ m2, ¬(e.isCons = true ∧ e.byClose = false)) := by
  cases l1 with
  | nil =>
    refine ⟨[], rest, (List.nil_append _).symm, ?_, ?_⟩
    · intro e he
      cases he
    · intro e he
      rw [List.nil_append] at heq
      exact h2 e (heq ▸ List.mem_cons_of_mem e0 he)
  | cons x l1 =>
    rw [List.cons_append] at heq
    injection heq with hx hrest
    exact ⟨l1, l2, hrest, fun e he => h1 e (List.mem_cons_of_mem x he), h2⟩

/-- Preservation of the scheduling invariant under one scheduled step. -/
theorem sStep_minv {c c2 : SConfig} (hs : SStep c c2)
    (ht : TInv ⟨c.q, c.tasks⟩) (hM : MInv c) : MInv c2 := by
  cases hs with
  | enq item =>
    by_cases hc : c.q.closed = true
    · simp only [sEnqueueCall, enqueueStep_eq_closed hc, applyWakeS]
      exact ⟨hM.mtqND,
        fun e he hic => get?_append_task (hM.mtqCons e he hic),
        fun e he hic => (hM.mtqProd e he hic).imp
          fun v hv => get?_append_task hv,
        hM.flagClosed, hM.countJ, hM.countK, hM.mtqSplit⟩
    · have hc' : c.q.closed = false := by simpa using hc
      by_cases hf : c.q.maxSize ≤ (c.q.count : ℚ)
      · simp only [sEnqueueCall, enqueueStep_eq_wait hc' hf, applyWakeS]
        exact ⟨hM.mtqND,
          fun e he hic => get?_append_task (hM.mtqCons e he hic),
          fun e he hic => (hM.mtqProd e he hic).imp
            fun v hv => get?_append_task hv,
          hM.flagClosed, hM.countJ, countK_of_open hc',
          mtqSplit_of_open hc' hM.flagClosed⟩
      · rcases List.eq_nil_or_concat c.q.waitingConsumers with hnil | ⟨cs, cid, hcc⟩
        rotate_left
        rw [List.concat_eq_append] at hcc
        rotate_right
        · simp only [sEnqueueCall, enqueueStep_eq_add_quiet hc' hf hnil,
            applyWakeS]
          exact ⟨hM.mtqND,
            fun e he hic => get?_append_task (hM.mtqCons e he hic),
            fun e he hic => (hM.mtqProd e he hic).imp
              fun v hv => get?_append_task hv,
            hM.flagClosed, fun hne => absurd hnil hne, countK_of_open hc',
            mtqSplit_of_open hc' hM.flagClosed⟩
        · simp only [sEnqueueCall, enqueueStep_eq_add_wake hc' hf hcc,
            applyWakeS]
          have hcidmem : cid ∈ c.q.waitingConsumers := by
            rw [hcc]; exact List.mem_append_right _ (List.mem_singleton_self _)
          have hcid : c.tasks.get? cid = some .deqWaiting := ht.cons cid hcidmem
          have hcidne : ∀ e2 ∈ c.mtq, e2.tid ≠ cid :=
            fun e2 he2 => mtq_ne_of_task hM he2 (Or.inl hcid)
          have hflag2 : ∀ e ∈ c.mtq ++ [(⟨cid, true, false⟩ : MEntry)],
              e.byClose = true → c.q.closed = true := by
            intro e he hb
            rcases List.mem_append.mp he with he | he
            · exact hM.flagClosed e he hb
            · rw [List.mem_singleton] at he
              subst he
              simp at hb
          refine ⟨?_, ?_, ?_, hflag2, ?_, countK_of_open hc',
            mtqSplit_of_open hc' hflag2⟩
          · simp only [List.map_append, List.map_cons, List.map_nil]
            exact nodup_concat_of hM.mtqND fun hmem => by
              obtain ⟨e2, he2, hetid⟩ := List.mem_map.mp hmem
              exact hcidne e2 he2 hetid
          · intro e he hic
            rcases List.mem_append.mp he with he | he
            · show (wakeTask (c.tasks ++ [.enqDone true]) cid).get? e.tid = _
              rw [wakeTask_get?_ne (Ne.symm (hcidne e he))]
              exact get?_append_task (hM.mtqCons e he hic)
            · rw [List.mem_singleton] at he
              subst he
              show (wakeTask (c.tasks ++ [.enqDone true]) cid).get? cid = _
              rw [wakeTask_get?_self (get?_append_task hcid)]
              rfl
          · intro e he hic
            rcases List.mem_append.mp he with he | he
            · obtain ⟨v, hv⟩ := hM.mtqProd e he hic
              refine ⟨v, ?_⟩
              show (wakeTask (c.tasks ++ [.enqDone true]) cid).get? e.tid = _
              rw [wakeTask_get?_ne (Ne.symm (hcidne e he))]
              exact get?_append_task hv
            · rw [List.mem_singleton] at he
              subst he
              simp at hic
          · intro hne
            have hJ := hM.countJ (by simp [hcc])
            have hd := dCount_snoc_cons c.mtq cid false
            show c.q.count + 1 ≤ dCount (c.mtq ++ [⟨cid, true, false⟩])
            omega
  | deq =>
    by_cases h0 : c.q.count = 0
    · by_cases hc : c.q.closed = true
      · simp only [sDequeueCall, dequeueStep_eq_end h0 hc, applyWakeS]
        exact ⟨hM.mtqND,
          fun e he hic => get?_append_task (hM.mtqCons e he hic),
          fun e he hic => (hM.mtqProd e he hic).imp
            fun v hv => get?_append_task hv,
          hM.flagClosed, hM.countJ, hM.countK, hM.mtqSplit⟩
      · have hc' : c.q.closed = false := by simpa using hc
        simp only [sDequeueCall, dequeueStep_eq_wait h0 hc', applyWakeS]
        exact ⟨hM.mtqND,
          fun e he hic => get?_append_task (hM.mtqCons e he hic),
          fun e he hic => (hM.mtqProd e he hic).imp
            fun v hv => get?_append_task hv,
          hM.flagClosed, fun hne => le_of_eq_of_le h0 (Nat.zero_le _),
          countK_of_open hc', mtqSplit_of_open hc' hM.flagClosed⟩
    · have hrem := removeFromBuffer_lists h0
      rcases List.eq_nil_or_concat c.q.waitingProducers with hnil | ⟨ps, pid, hpp⟩
      rotate_left
      rw [List.concat_eq_append] at hpp
      rotate_right
      · simp only [sDequeueCall, dequeueStep_eq_pop_quiet h0 hnil, applyWakeS]
        have hflag2 : ∀ e ∈ c.mtq, e.byClose = true →
            (removeFromBuffer c.q).1.closed = true := by
          intro e he hb
          rw [hrem.2.2.1]
          exact hM.flagClosed e he hb
        refine ⟨hM.mtqND,
          fun e he hic => get?_append_task (hM.mtqCons e he hic),
          fun e he hic => (hM.mtqProd e he hic).imp
            fun v hv => get?_append_task hv,
          hflag2, ?_, ?_, hM.mtqSplit⟩
        · intro hne
          rw [show (removeFromBuffer c.q).1.waitingConsumers =
            c.q.waitingConsumers from hrem.1] at hne
          have hJ := hM.countJ hne
          have hcnt := hrem.2.2.2.2
          show (removeFromBuffer c.q).1.count ≤ dCount c.mtq
          omega
        · intro hcl hex
          rw [show (removeFromBuffer c.q).1.closed = c.q.closed from
            hrem.2.2.1] at hcl
          have hK := hM.countK hcl hex
          have hcnt := hrem.2.2.2.2
          show (removeFromBuffer c.q).1.count ≤ uCount c.mtq
          omega
      · by_cases hcq : c.q.closed = true
        · have hcontra := (ht.closedEmpty hcq).2
          rw [hpp] at hcontra
          simp at hcontra
        · have hc' : c.q.closed = false := by simpa using hcq
          simp only [sDequeueCall, dequeueStep_eq_pop_wake h0 hpp, applyWakeS]
          have hpidmem : pid ∈ c.q.waitingProducers := by
            rw [hpp]; exact List.mem_append_right _ (List.mem_singleton_self _)
          obtain ⟨v0, hpid⟩ := ht.prods pid hpidmem
          have hpidne : ∀ e2 ∈ c.mtq, e2.tid ≠ pid :=
            fun e2 he2 => mtq_ne_of_task hM he2 (Or.inr ⟨v0, hpid⟩)
          have hclrm : ({ (removeFromBuffer c.q).1 with
              waitingProducers := ps } : QState).closed = false := by
            show (removeFromBuffer c.q).1.closed = false
            rw [hrem.2.2.1]
            exact hc'
          have hflag2 : ∀ e ∈ c.mtq ++ [(⟨pid, false, false⟩ : MEntry)],
              e.byClose = true →
              ({ (removeFromBuffer c.q).1 with waitingProducers := ps } :
                QState).closed = true := by
            intro e he hb
            rcases List.mem_append.mp he with he | he
            · show (removeFromBuffer c.q).1.closed = true
              rw [hrem.2.2.1]
              exact hM.flagClosed e he hb
            · rw [List.mem_singleton] at he
              subst he
              simp at hb
          refine ⟨?_, ?_, ?_, hflag2, ?_, countK_of_open hclrm,
            mtqSplit_of_open hclrm hflag2⟩
          · simp only [List.map_append, List.map_cons, List.map_nil]
            exact nodup_concat_of hM.mtqND fun hmem => by
              obtain ⟨e2, he2, hetid⟩ := List.mem_map.mp hmem
              exact hpidne e2 he2 hetid
          · intro e he hic
            rcases List.mem_append.mp he with he | he
            · show (wakeTask (c.tasks ++ [.deqDone (removeFromBuffer c.q).2])
                pid).get? e.tid = _
              rw [wakeTask_get?_ne (Ne.symm (hpidne e he))]
              exact get?_append_task (hM.mtqCons e he hic)
            · rw [List.mem_singleton] at he
              subst he
              simp at hic
          · intro e he hic
            rcases List.mem_append.mp he with he | he
            · obtain ⟨v, hv⟩ := hM.mtqProd e he hic
              refine ⟨v, ?_⟩
              show (wakeTask (c.tasks ++ [.deqDone (removeFromBuffer c.q).2])
                pid).get? e.tid = _
              rw [wakeTask_get?_ne (Ne.symm (hpidne e he))]
              exact get?_append_task hv
            · rw [List.mem_singleton] at he
              subst he
              refine ⟨v0, ?_⟩
              show (wakeTask (c.tasks ++ [.deqDone (removeFromBuffer c.q).2])
                pid).get? pid = _
              rw [wakeTask_get?_self (get?_append_task hpid)]
              rfl
          · intro hne
            rw [show ({ (removeFromBuffer c.q).1 with
              waitingProducers := ps } : QState).waitingConsumers =
              c.q.waitingConsumers from hrem.1] at hne
            have hJ := hM.countJ hne
            have hcnt := hrem.2.2.2.2
            have hd := dCount_snoc_prod c.mtq pid false
            show (removeFromBuffer c.q).1.count ≤
              dCount (c.mtq ++ [⟨pid, false, false⟩])
            omega
  | close =>
    have hdisj : ∀ tid, tid ∈ c.q.waitingConsumers →
        tid ∈ c.q.waitingProducers → False := by
      intro tid hmc hmp
      obtain ⟨v, hv⟩ := ht.prods tid hmp
      have := (ht.cons tid hmc).symm.trans hv
      simp at this
    have hmtqC : ∀ e ∈ c.mtq, e.tid ∉ c.q.waitingConsumers :=
      fun e he hmem => mtq_ne_of_task hM he (Or.inl (ht.cons e.tid hmem)) rfl
    have hmtqP : ∀ e ∈ c.mtq, e.tid ∉ c.q.waitingProducers :=
      fun e he hmem => mtq_ne_of_task hM he (Or.inr (ht.prods e.tid hmem)) rfl
    refine ⟨?_, ?_, ?_, fun e he hb => rfl, fun hne => absurd rfl hne, ?_, ?_⟩
    · simp only [sClose, List.map_append, map_tid_consMap, map_tid_prodMap]
      refine List.nodup_append.mpr ⟨List.nodup_append.mpr
        ⟨hM.mtqND, ht.consND, ?_⟩, ht.prodND, ?_⟩
      · intro x hxA hxB
        obtain ⟨e, he, hetid⟩ := List.mem_map.mp hxA
        exact hmtqC e he (by rw [hetid]; exact hxB)
      · intro x hx hxP
        rcases List.mem_append.mp hx with hx | hx
        · obtain ⟨e, he, hetid⟩ := List.mem_map.mp hx
          exact hmtqP e he (by rw [hetid]; exact hxP)
        · exact hdisj x hx hxP
    · intro e he hic
      rcases List.mem_append.mp he with he1 | he2
      · rcases List.mem_append.mp he1 with hm | hcme
        · show (resumeIds (resumeIds c.tasks c.q.waitingConsumers)
            c.q.waitingProducers).get? e.tid = _
          rw [resumeIds_get?_not_mem (hmtqP e hm),
            resumeIds_get?_not_mem (hmtqC e hm)]
          exact hM.mtqCons e hm hic
        · obtain ⟨t, htmem, hte⟩ := List.mem_map.mp hcme
          subst hte
          show (resumeIds (resumeIds c.tasks c.q.waitingConsumers)
            c.q.waitingProducers).get? t = _
          rw [resumeIds_get?_not_mem fun hmp => hdisj t htmem hmp,
            resumeIds_get?_mem ht.consND htmem (ht.cons t htmem)]
          rfl
      · obtain ⟨t, htmem, hte⟩ := List.mem_map.mp he2
        rw [← hte] at hic
        simp at hic
    · intro e he hic
      rcases List.mem_append.mp he with he1 | he2
      · rcases List.mem_append.mp he1 with hm | hcme
        · obtain ⟨v, hv⟩ := hM.mtqProd e hm hic
          refine ⟨v, ?_⟩
          show (resumeIds (resumeIds c.tasks c.q.waitingConsumers)
            c.q.waitingProducers).get? e.tid = _
          rw [resumeIds_get?_not_mem (hmtqP e hm),
            resumeIds_get?_not_mem (hmtqC e hm)]
          exact hv
        · obtain ⟨t, htmem, hte⟩ := List.mem_map.mp hcme
          rw [← hte] at hic
          simp at hic
      · obtain ⟨t, htmem, hte⟩ := List.mem_map.mp he2
        subst hte
        obtain ⟨v, hv⟩ := ht.prods t htmem
        refine ⟨v, ?_⟩
        show (resumeIds (resumeIds c.tasks c.q.waitingConsumers)
          c.q.waitingProducers).get? t = _
        rw [resumeIds_get?_mem ht.prodND htmem
          (by rw [resumeIds_get?_not_mem fun hmc => hdisj t hmc htmem]
              exact hv)]
        rfl
    · intro hcl hex
      obtain ⟨e, hem, hic, hbc⟩ := hex
      have hem2 : e ∈ c.mtq ++
          c.q.waitingConsumers.map (fun t => (⟨t, true, true⟩ : MEntry)) ++
          c.q.waitingProducers.map (fun t => (⟨t, false, true⟩ : MEntry)) := hem
      show c.q.count ≤ uCount (c.mtq ++
        c.q.waitingConsumers.map (fun t => (⟨t, true, true⟩ : MEntry)) ++
        c.q.waitingProducers.map (fun t => (⟨t, false, true⟩ : MEntry)))
      rw [uCount_append, uCount_append, uCount_consMap, uCount_prodMap]
      by_cases hcq : c.q.closed = true
      · obtain ⟨hc0, hp0⟩ := ht.closedEmpty hcq
        rw [hc0, hp0] at hem2
        simp only [List.map_nil, List.append_nil] at hem2
        have hK := hM.countK hcq ⟨e, hem2, hic, hbc⟩
        omega
      · have hc' : c.q.closed = false := by simpa using hcq
        have hunf : ∀ e2 ∈ c.mtq, e2.byClose = false := by
          intro e2 he2
          cases hb : e2.byClose
          · rfl
          · have := hM.flagClosed e2 he2 hb
            rw [hc'] at this
            cases this
        have hne : c.q.waitingConsumers ≠ [] := by
          rcases List.mem_append.mp hem2 with he1 | he2
          · rcases List.mem_append.mp he1 with hm | hcme
            · have := hunf e hm
              rw [hbc] at this
              cases this
            · intro hc0
              rw [hc0] at hcme
              simp at hcme
          · obtain ⟨t, htmem, hte⟩ := List.mem_map.mp he2
            rw [← hte] at hic
            simp at hic
        have hJ := hM.countJ hne
        have hdu : uCount c.mtq = dCount c.mtq := uCount_eq_dCount hunf
        omega
    · by_cases hcq : c.q.closed = true
      · obtain ⟨hc0, hp0⟩ := ht.closedEmpty hcq
        obtain ⟨l1, l2, heq, h1, h2⟩ := hM.mtqSplit
        refine ⟨l1, l2, ?_, h1, h2⟩
        show c.mtq ++
          c.q.waitingConsumers.map (fun t => (⟨t, true, true⟩ : MEntry)) ++
          c.q.waitingProducers.map (fun t => (⟨t, false, true⟩ : MEntry)) =
          l1 ++ l2
        rw [hc0, hp0]
        simp only [List.map_nil, List.append_nil]
        exact heq
      · have hc' : c.q.closed = false := by simpa using hcq
        refine ⟨c.mtq,
          c.q.waitingConsumers.map (fun t => (⟨t, true, true⟩ : MEntry)) ++
          c.q.waitingProducers.map (fun t => (⟨t, false, true⟩ : MEntry)),
          ?_, ?_, ?_⟩
        · show c.mtq ++
            c.q.waitingConsumers.map (fun t => (⟨t, true, true⟩ : MEntry)) ++
            c.q.waitingProducers.map (fun t => (⟨t, false, true⟩ : MEntry)) =
            c.mtq ++
            (c.q.waitingConsumers.map (fun t => (⟨t, true, true⟩ : MEntry)) ++
             c.q.waitingProducers.map (fun t => (⟨t, false, true⟩ : MEntry)))
          exact List.append_assoc _ _ _
        · intro e he hco
          have := hM.flagClosed e he hco.2
          rw [hc'] at this
          cases this
        · intro e he
          rcases List.mem_append.mp he with he | he
          · obtain ⟨t, htmem, hte⟩ := List.mem_map.mp he
            rw [← hte]
            simp
          · obtain ⟨t, htmem, hte⟩ := List.mem_map.mp he
            rw [← hte]
            simp
  | runEnq e0 rest item hq h =>
    have hND := hM.mtqND
    rw [hq, List.map_cons] at hND
    have hhead : e0.tid ∉ rest.map MEntry.tid := (List.nodup_cons.mp hND).1
    have htail : (rest.map MEntry.tid).Nodup := (List.nodup_cons.mp hND).2
    have hne0 : ∀ e2 ∈ rest, e0.tid ≠ e2.tid := by
      intro e2 he2 heq
      exact hhead (heq ▸ List.mem_map_of_mem MEntry.tid he2)
    have hmemc : ∀ e2 ∈ rest, e2 ∈ c.mtq := by
      intro e2 he2
      rw [hq]
      exact List.mem_cons_of_mem e0 he2
    have he0m : e0 ∈ c.mtq := by
      rw [hq]
      exact List.mem_cons_self e0 rest
    have he0c : e0.isCons = false := by
      cases hic : e0.isCons
      · rfl
      · have := (hM.mtqCons e0 he0m hic).symm.trans h
        simp at this
    have hdc : dCount (e0 :: rest) = dCount rest := by
      rw [dCount_cons, if_neg (by rw [he0c]; simp)]
      omega
    have hu1 : uCount (e0 :: rest) = uCount rest := by
      rw [uCount_cons, if_neg (by rw [he0c]; simp)]
      omega
    by_cases hc : c.q.closed = true
    · simp only [sResumeEnq, enqueueStep_eq_closed hc, applyWakeS]
      refine ⟨htail, ?_, ?_, ?_, ?_, ?_, ?_⟩
      · intro e he hic
        exact get?_set_task (hne0 e he) (hM.mtqCons e (hmemc e he) hic)
      · intro e he hic
        exact (hM.mtqProd e (hmemc e he) hic).imp
          fun v hv => get?_set_task (hne0 e he) hv
      · intro e he hb
        exact hM.flagClosed e (hmemc e he) hb
      · intro hne
        exact absurd (ht.closedEmpty hc).1 hne
      · intro hcl hex
        obtain ⟨e, hem, hic, hbc⟩ := hex
        have hK := hM.countK hc ⟨e, hmemc e hem, hic, hbc⟩
        rw [hq] at hK
        show c.q.count ≤ uCount rest
        omega
      · obtain ⟨l1, l2, heq, h1, h2⟩ := hM.mtqSplit
        rw [hq] at heq
        exact mtqSplit_tail heq h1 h2
    · have hc' : c.q.closed = false := by simpa using hc
      by_cases hf : c.q.maxSize ≤ (c.q.count : ℚ)
      · simp only [sResumeEnq, enqueueStep_eq_wait hc' hf, applyWakeS]
        have hflag2 : ∀ e ∈ rest, e.byClose = true → c.q.closed = true :=
          fun e he hb => hM.flagClosed e (hmemc e he) hb
        refine ⟨htail, ?_, ?_, hflag2, ?_, countK_of_open hc',
          mtqSplit_of_open hc' hflag2⟩
        · intro e he hic
          exact get?_set_task (hne0 e he) (hM.mtqCons e (hmemc e he) hic)
        · intro e he hic
          exact (hM.mtqProd e (hmemc e he) hic).imp
            fun v hv => get?_set_task (hne0 e he) hv
        · intro hne
          have hJ := hM.countJ hne
          rw [hq] at hJ
          show c.q.count ≤ dCount rest
          omega
      · rcases List.eq_nil_or_concat c.q.waitingConsumers with hnil | ⟨cs, cid, hcc⟩
        rotate_left
        rw [List.concat_eq_append] at hcc
        rotate_right
        · simp only [sResumeEnq, enqueueStep_eq_add_quiet hc' hf hnil,
            applyWakeS]
          have hflag2 : ∀ e ∈ rest, e.byClose = true →
              (addToBuffer c.q item).closed = true :=
            fun e he hb => hM.flagClosed e (hmemc e he) hb
          refine ⟨htail, ?_, ?_, hflag2, fun hne => absurd hnil hne,
            countK_of_open hc', mtqSplit_of_open hc' hflag2⟩
          · intro e he hic
            exact get?_set_task (hne0 e he) (hM.mtqCons e (hmemc e he) hic)
          · intro e he hic
            exact (hM.mtqProd e (hmemc e he) hic).imp
              fun v hv => get?_set_task (hne0 e he) hv
        · simp only [sResumeEnq, enqueueStep_eq_add_wake hc' hf hcc,
            applyWakeS]
          have hcidmem : cid ∈ c.q.waitingConsumers := by
            rw [hcc]; exact List.mem_append_right _ (List.mem_singleton_self _)
          have hcid : c.tasks.get? cid = some .deqWaiting := ht.cons cid hcidmem
          have hcidne : ∀ e2 ∈ c.mtq, e2.tid ≠ cid :=
            fun e2 he2 => mtq_ne_of_task hM he2 (Or.inl hcid)
          have he0cid : e0.tid ≠ cid := hcidne e0 he0m
          have hflag2 : ∀ e ∈ rest ++ [(⟨cid, true, false⟩ : MEntry)],
              e.byClose = true → c.q.closed = true := by
            intro e he hb
            rcases List.mem_append.mp he with he | he
            · exact hM.flagClosed e (hmemc e he) hb
            · rw [List.mem_singleton] at he
              subst he
              simp at hb
          refine ⟨?_, ?_, ?_, hflag2, ?_, countK_of_open hc',
            mtqSplit_of_open hc' hflag2⟩
          · simp only [List.map_append, List.map_cons, List.map_nil]
            exact nodup_concat_of htail fun hmem => by
              obtain ⟨e2, he2, hetid⟩ := List.mem_map.mp hmem
              exact hcidne e2 (hmemc e2 he2) hetid
          · intro e he hic
            rcases List.mem_append.mp he with he | he
            · show (wakeTask (c.tasks.set e0.tid (.enqDone true)) cid).get?
                e.tid = _
              rw [wakeTask_get?_ne (Ne.symm (hcidne e (hmemc e he)))]
              exact get?_set_task (hne0 e he) (hM.mtqCons e (hmemc e he) hic)
            · rw [List.mem_singleton] at he
              subst he
              show (wakeTask (c.tasks.set e0.tid (.enqDone true)) cid).get?
                cid = _
              rw [wakeTask_get?_self (get?_set_task he0cid hcid)]
              rfl
          · intro e he hic
            rcases List.mem_append.mp he with he | he
            · obtain ⟨v, hv⟩ := hM.mtqProd e (hmemc e he) hic
              refine ⟨v, ?_⟩
              show (wakeTask (c.tasks.set e0.tid (.enqDone true)) cid).get?
                e.tid = _
              rw [wakeTask_get?_ne (Ne.symm (hcidne e (hmemc e he)))]
              exact get?_set_task (hne0 e he) hv
            · rw [List.mem_singleton] at he
              subst he
              simp at hic
          · intro hne
            have hJ := hM.countJ (by simp [hcc])
            rw [hq] at hJ
            have hd := dCount_snoc_cons rest cid false
            show c.q.count + 1 ≤ dCount (rest ++ [⟨cid, true, false⟩])
            omega
  | runDeq e0 rest hq h =>
    have hND := hM.mtqND
    rw [hq, List.map_cons] at hND
    have hhead : e0.tid ∉ rest.map MEntry.tid := (List.nodup_cons.mp hND).1
    have htail : (rest.map MEntry.tid).Nodup := (List.nodup_cons.mp hND).2
    have hne0 : ∀ e2 ∈ rest, e0.tid ≠ e2.tid := by
      intro e2 he2 heq
      exact hhead (heq ▸ List.mem_map_of_mem MEntry.tid he2)
    have hmemc : ∀ e2 ∈ rest, e2 ∈ c.mtq := by
      intro e2 he2
      rw [hq]
      exact List.mem_cons_of_mem e0 he2
    have he0m : e0 ∈ c.mtq := by
      rw [hq]
      exact List.mem_cons_self e0 rest
    have he0c : e0.isCons = true := by
      cases hic : e0.isCons
      · obtain ⟨v, hv⟩ := hM.mtqProd e0 he0m hic
        have := hv.symm.trans h
        simp at this
      · rfl
    have hdc : dCount (e0 :: rest) = dCount rest + 1 := by
      rw [dCount_cons, if_pos he0c]
      omega
    have hu1 : uCount (e0 :: rest) ≤ uCount rest + 1 := by
      rw [uCount_cons]
      split
      · omega
      · omega
    by_cases h0 : c.q.count = 0
    · by_cases hc : c.q.closed = true
      · simp only [sResumeDeq, dequeueStep_eq_end h0 hc, applyWakeS]
        refine ⟨htail, ?_, ?_, ?_, ?_, ?_, ?_⟩
        · intro e he hic
          exact get?_set_task (hne0 e he) (hM.mtqCons e (hmemc e he) hic)
        · intro e he hic
          exact (hM.mtqProd e (hmemc e he) hic).imp
            fun v hv => get?_set_task (hne0 e he) hv
        · intro e he hb
          exact hM.flagClosed e (hmemc e he) hb
        · intro hne
          exact absurd (ht.closedEmpty hc).1 hne
        · intro hcl hex
          show c.q.count ≤ uCount rest
          rw [h0]
          exact Nat.zero_le _
        · obtain ⟨l1, l2, heq, h1, h2⟩ := hM.mtqSplit
          rw [hq] at heq
          exact mtqSplit_tail heq h1 h2
      · have hc' : c.q.closed = false := by simpa using hc
        simp only [sResumeDeq, dequeueStep_eq_wait h0 hc', applyWakeS]
        have hflag2 : ∀ e ∈ rest, e.byClose = true → c.q.closed = true :=
          fun e he hb => hM.flagClosed e (hmemc e he) hb
        refine ⟨htail, ?_, ?_, hflag2,
          fun hne => le_of_eq_of_le h0 (Nat.zero_le _),
          countK_of_open hc', mtqSplit_of_open hc' hflag2⟩
        · intro e he hic
          exact get?_set_task (hne0 e he) (hM.mtqCons e (hmemc e he) hic)
        · intro e he hic
          exact (hM.mtqProd e (hmemc e he) hic).imp
            fun v hv => get?_set_task (hne0 e he) hv
    · have hrem := removeFromBuffer_lists h0
      rcases List.eq_nil_or_concat c.q.waitingProducers with hnil | ⟨ps, pid, hpp⟩
      rotate_left
      rw [List.concat_eq_append] at hpp
      rotate_right
      · simp only [sResumeDeq, dequeueStep_eq_pop_quiet h0 hnil, applyWakeS]
        have hflag2 : ∀ e ∈ rest, e.byClose = true →
            (removeFromBuffer c.q).1.closed = true := by
          intro e he hb
          rw [hrem.2.2.1]
          exact hM.flagClosed e (hmemc e he) hb
        refine ⟨htail, ?_, ?_, hflag2, ?_, ?_, ?_⟩
        · intro e he hic
          exact get?_set_task (hne0 e he) (hM.mtqCons e (hmemc e he) hic)
        · intro e he hic
          exact (hM.mtqProd e (hmemc e he) hic).imp
            fun v hv => get?_set_task (hne0 e he) hv
        · intro hne
          rw [show (removeFromBuffer c.q).1.waitingConsumers =
            c.q.waitingConsumers from hrem.1] at hne
          have hJ := hM.countJ hne
          rw [hq] at hJ
          have hcnt := hrem.2.2.2.2
          show (removeFromBuffer c.q).1.count ≤ dCount rest
          omega
        · intro hcl hex
          rw [show (removeFromBuffer c.q).1.closed = c.q.closed from
            hrem.2.2.1] at hcl
          obtain ⟨e, hem, hic, hbc⟩ := hex
          have hK := hM.countK hcl ⟨e, hmemc e hem, hic, hbc⟩
          rw [hq] at hK
          have hcnt := hrem.2.2.2.2
          show (removeFromBuffer c.q).1.count ≤ uCount rest
          omega
        · obtain ⟨l1, l2, heq, h1, h2⟩ := hM.mtqSplit
          rw [hq] at heq
          exact mtqSplit_tail heq h1 h2
      · by_cases hcq : c.q.closed = true
        · have hcontra := (ht.closedEmpty hcq).2
          rw [hpp] at hcontra
          simp at hcontra
        · have hc' : c.q.closed = false := by simpa using hcq
          simp only [sResumeDeq, dequeueStep_eq_pop_wake h0 hpp, applyWakeS]
          have hpidmem : pid ∈ c.q.waitingProducers := by
            rw [hpp]; exact List.mem_append_right _ (List.mem_singleton_self _)
          obtain ⟨v0, hpid⟩ := ht.prods pid hpidmem
          have hpidne : ∀ e2 ∈ c.mtq, e2.tid ≠ pid :=
            fun e2 he2 => mtq_ne_of_task hM he2 (Or.inr ⟨v0, hpid⟩)
          have he0pid : e0.tid ≠ pid := hpidne e0 he0m
          have hclrm : ({ (removeFromBuffer c.q).1 with
              waitingProducers := ps } : QState).closed = false := by
            show (removeFromBuffer c.q).1.closed = false
            rw [hrem.2.2.1]
            exact hc'
          have hflag2 : ∀ e ∈ rest ++ [(⟨pid, false, false⟩ : MEntry)],
              e.byClose = true →
              ({ (removeFromBuffer c.q).1 with waitingProducers := ps } :
                QState).closed = true := by
            intro e he hb
            rcases List.mem_append.mp he with he | he
            · show (removeFromBuffer c.q).1.closed = true
              rw [hrem.2.2.1]
              exact hM.flagClosed e (hmemc e he) hb
            · rw [List.mem_singleton] at he
              subst he
              simp at hb
          refine ⟨?_, ?_, ?_, hflag2, ?_, countK_of_open hclrm,
            mtqSplit_of_open hclrm hflag2⟩
          · simp only [List.map_append, List.map_cons, List.map_nil]
            exact nodup_concat_of htail fun hmem => by
              obtain ⟨e2, he2, hetid⟩ := List.mem_map.mp hmem
              exact hpidne e2 (hmemc e2 he2) hetid
          · intro e he hic
            rcases List.mem_append.mp he with he | he
            · show (wakeTask (c.tasks.set e0.tid
                (.deqDone (removeFromBuffer c.q).2)) pid).get? e.tid = _
              rw [wakeTask_get?_ne (Ne.symm (hpidne e (hmemc e he)))]
              exact get?_set_task (hne0 e he) (hM.mtqCons e (hmemc e he) hic)
            · rw [List.mem_singleton] at he
              subst he
              simp at hic
          · intro e he hic
            rcases List.mem_append.mp he with he | he
            · obtain ⟨v, hv⟩ := hM.mtqProd e (hmemc e he) hic
              refine ⟨v, ?_⟩
              show (wakeTask (c.tasks.set e0.tid
                (.deqDone (removeFromBuffer c.q).2)) pid).get? e.tid = _
              rw [wakeTask_get?_ne (Ne.symm (hpidne e (hmemc e he)))]
              exact get?_set_task (hne0 e he) hv
            · rw [List.mem_singleton] at he
              subst he
              refine ⟨v0, ?_⟩
              show (wakeTask (c.tasks.set e0.tid
                (.deqDone (removeFromBuffer c.q).2)) pid).get? pid = _
              rw [wakeTask_get?_self (get?_set_task he0pid hpid)]
              rfl
          · intro hne
            rw [show ({ (removeFromBuffer c.q).1 with
              waitingProducers := ps } : QState).waitingConsumers =
              c.q.waitingConsumers from hrem.1] at hne
            have hJ := hM.countJ hne
            rw [hq] at hJ
            have hcnt := hrem.2.2.2.2
            have hd := dCount_snoc_prod rest pid false
            show (removeFromBuffer c.q).1.count ≤
              dCount (rest ++ [⟨pid, false, false⟩])
            omega

/-- Both invariants hold in every reachable configuration of the
scheduled machine, for every successfully constructed queue. -/
theorem sReach_inv {m : ℚ} {q0 : QState} (hq0 : mkQueue m = some q0)
    {c : SConfig} (hr : SReach ⟨q0, [], []⟩ c) :
    TInv ⟨c.q, c.tasks⟩ ∧ MInv c := by
  induction hr with
  | refl =>
    obtain ⟨_, _, _, _, hWC, hWP, hcl, _⟩ := mkQueue_fields hq0
    constructor
    · refine ⟨?_, ?_, ?_, ?_, ?_⟩
      · intro tid hm
        have hm2 : tid ∈ q0.waitingConsumers := hm
        rw [hWC] at hm2
        cases hm2
      · intro tid hm
        have hm2 : tid ∈ q0.waitingProducers := hm
        rw [hWP] at hm2
        cases hm2
      · show q0.waitingConsumers.Nodup
        rw [hWC]
        exact List.nodup_nil
      · show q0.waitingProducers.Nodup
        rw [hWP]
        exact List.nodup_nil
      · intro hcl2
        have hcl3 : q0.closed = true := hcl2
        rw [hcl] at hcl3
        cases hcl3
    · refine ⟨?_, ?_, ?_, ?_, ?_, ?_, ?_⟩
      · show (([] : List MEntry).map MEntry.tid).Nodup
        exact List.nodup_nil
      · exact fun e he => absurd he (List.not_mem_nil e)
      · exact fun e he => absurd he (List.not_mem_nil e)
      · exact fun e he => absurd he (List.not_mem_nil e)
      · exact fun hne => absurd hWC hne
      · intro hcl2
        have hcl3 : q0.closed = true := hcl2
        rw [hcl] at hcl3
        cases hcl3
      · exact ⟨[], [], rfl, fun e he => absurd he (List.not_mem_nil e),
          fun e he => absurd he (List.not_mem_nil e)⟩
  | tail h hs ih => exact ⟨sStep_tinv hs ih.1, sStep_minv hs ih.1 ih.2⟩

/-! ### Claim theorems -/

/-- **C4** Closed rejects new input atomically: with the `closed` flag
set, a fresh `enqueue` call immediately finishes with the "queue closed"
error, leaving the queue state (buffer included) untouched; a suspended
`enqueue` resumed while `closed` is set does the same; and `closed` is
monotone under every step, so an `enqueue` resumed by a concurrent
`close()` necessarily runs with `closed` still set.  In all cases the
step's label is `tau`: the item is never written to a slot, hence never
delivered to any consumer. -/
theorem closed_rejects_enqueue (c : Config) (item : Val)
    (hcl : c.q.closed = true) :
    (doEnqueueCall c item).1.q = c.q ∧
    (doEnqueueCall c item).1.tasks = c.tasks ++ [.enqDone false] ∧
    (doEnqueueCall c item).2 = .tau ∧
    (∀ tid it, c.tasks.get? tid = some (.enqResumed it) →
      (doEnqueueResume c tid it).1.q = c.q ∧
      (doEnqueueResume c tid it).1.tasks = c.tasks.set tid (.enqDone false) ∧
      (doEnqueueResume c tid it).2 = .tau) ∧
    (∀ l c2, Step c l c2 → c2.q.closed = true) := by
  refine ⟨?_, ?_, ?_, ?_, ?_⟩
  · simp [doEnqueueCall, enqueueStep, hcl, applyWake]
  · simp [doEnqueueCall, enqueueStep, hcl, applyWake]
  · simp [doEnqueueCall, enqueueStep, hcl]
  · intro tid it _
    refine ⟨?_, ?_, ?_⟩
    · simp [doEnqueueResume, enqueueStep, hcl, applyWake]
    · simp [doEnqueueResume, enqueueStep, hcl, applyWake]
    · simp [doEnqueueResume, enqueueStep, hcl]
  · intro l c2 hs
    exact hs.closed_mono hcl

/-- **C4 witness**: a concrete closed queue with one resumed producer. -/
theorem closed_rejects_enqueue_witness :
    (doEnqueueCall ⟨{ qCap1 with closed := true }, [.enqResumed (some 3)]⟩
        (some 4)).1.q = { qCap1 with closed := true } ∧
    (doEnqueueCall ⟨{ qCap1 with closed := true }, [.enqResumed (some 3)]⟩
        (some 4)).1.tasks = [.enqResumed (some 3), .enqDone false] ∧
    (doEnqueueCall ⟨{ qCap1 with closed := true }, [.enqResumed (some 3)]⟩
        (some 4)).2 = .tau ∧
    ((doEnqueueResume ⟨{ qCap1 with closed := true },
        [.enqResumed (some 3)]⟩ 0 (some 3)).1.q =
      { qCap1 with closed := true } ∧
     (doEnqueueResume ⟨{ qCap1 with closed := true },
        [.enqResumed (some 3)]⟩ 0 (some 3)).1.tasks = [.enqDone false] ∧
     (doEnqueueResume ⟨{ qCap1 with closed := true },
        [.enqResumed (some 3)]⟩ 0 (some 3)).2 = .tau) := by
  have h := closed_rejects_enqueue
    ⟨{ qCap1 with closed := true }, [.enqResumed (some 3)]⟩ (some 4) rfl
  refine ⟨h.1, ?_, h.2.2.1, ?_⟩
  · have := h.2.1
    simpa using this
  · have h4 := h.2.2.2.1 0 (some 3) (by decide)
    refine ⟨h4.1, ?_, h4.2.2⟩
    have := h4.2.1
    simpa using this

/-- **C6** Construction does not fail only for `capacity < 1`: the
constructor computes `1 << (32 - clz32(maxSize - 1))` as a signed 32-bit
shift, so for `capacity = 2^30 + 1` (which is `≥ 1`) the buffer size is
the negative Int32 `1 << 31` and `new Array` throws, i.e. construction
fails; and for the accepted non-integer capacity `1.5` the slot array
has length 1, which is not `1.5` rounded up to the next power of two
(the accessor-side behaviour the claim does describe correctly is shown
on capacity 3: slot array length 4, `capacity` returns the unrounded
3). -/
theorem construction_capacity_overflow :
    ((1073741825 : ℚ) = 2 ^ 30 + 1 ∧ (1 : ℚ) ≤ 1073741825) ∧
    mkQueue (1073741825 : ℚ) = none ∧
    (mkQueue 3 = some ⟨3, [none, none, none, none], 0, 0, 0, [], [], false⟩ ∧
      capacity ⟨3, [none, none, none, none], 0, 0, 0, [], [], false⟩ = 3) ∧
    (mkRat 3 2 = 3 / 2 ∧ mkQueue (mkRat 3 2) = some qFrac ∧
      qFrac.buffer.length = 1 ∧
      ((qFrac.buffer.length : ℚ) < mkRat 3 2)) := by
  refine ⟨⟨by norm_num, by decide⟩, by decide, ⟨by decide, by decide⟩,
    by norm_num, by decide, by decide, by decide⟩

/-- **C9** An accepted non-integer capacity (`1.5`) yields a slot array
with fewer slots (1) than the number of items the full-queue test admits
(2): two successful `enqueue`s with no intervening `dequeue` both write
slot 0, `size` reports 2 while only one item is retrievable, and the
first item is silently overwritten — the first `dequeue` returns the
second item, not the first, and the next `dequeue` returns `undefined`. -/
theorem fractional_capacity_overwrite :
    mkRat 3 2 = 3 / 2 ∧
    mkQueue (mkRat 3 2) = some qFrac ∧
    ¬ (mkRat 3 2 < 1) ∧
    qFrac.buffer.length = 1 ∧
    isFull (doEnqueueCall ⟨qFrac, []⟩ (some 1)).1.q = false ∧
    cFrac2.tasks = [.enqDone true, .enqDone true] ∧
    size cFrac2.q = 2 ∧
    (dequeueSync cFrac2.q).map Prod.snd = some (some 2) ∧
    (dequeueSync cFrac2.q).map Prod.snd ≠ some (some 1) ∧
    ((dequeueSync cFrac2.q).bind fun p => (dequeueSync p.1).map Prod.snd) =
      some none := by
  refine ⟨by norm_num, by decide, by decide, by decide, by decide, by decide,
    by decide, by decide, by decide, by decide⟩

/-- **C10** A stored `undefined` is indistinguishable from the
end-of-stream marker: after `enqueue(undefined); enqueue(5)` on an open
capacity-2 queue, the next `dequeue` returns `undefined` — the same
result a closed-and-drained queue gives — and `take(2)`, the async
iterator and `drain` all stop at that item, returning no items while the
open queue still holds the later item 5. -/
theorem undefined_item_ends_stream :
    mkQueue (2 : ℚ) = some qCap2 ∧
    cUndef2.tasks = [.enqDone true, .enqDone true] ∧
    cUndef2.q.closed = false ∧
    size cUndef2.q = 2 ∧
    bufItems cUndef2.q = [none, some 5] ∧
    (dequeueSync cUndef2.q).map Prod.snd = some none ∧
    (dequeueSync ⟨2, [none, none], 0, 0, 0, [], [], true⟩).map Prod.snd =
      some none ∧
    take cUndef2.q 2 = some ([], ⟨2, [none, some 5], 1, 0, 1, [], [], false⟩) ∧
    iterItems cUndef2.q 5 =
      some ([], ⟨2, [none, some 5], 1, 0, 1, [], [], false⟩) ∧
    drain cUndef2.q 5 =
      some ([], ⟨2, [none, some 5], 1, 0, 1, [], [], false⟩) ∧
    bufItems ⟨2, [none, some 5], 1, 0, 1, [], [], false⟩ = [some 5] := by
  refine ⟨by decide, by decide, by decide, by decide, by decide, by decide,
    by decide, by decide, by decide, by decide, by decide⟩

/-- **C1 counterexample** The FIFO claim fails for the accepted capacity
`2^31 + 1`: the 32-bit shift makes the slot array a single slot, so after
the accepted sequence `enqueue(1); enqueue(2)` (both successful, neither
suspends) the first `dequeue` of the drain delivers item 2, not item 1. -/
theorem fifo_delivery_cex :
    ((2147483649 : ℚ) = 2 ^ 31 + 1 ∧ (1 : ℚ) ≤ 2147483649) ∧
    mkQueue (2147483649 : ℚ) = some qBig ∧
    Traces ⟨qBig, []⟩ lsBig cBig3 ∧
    acceptedOf lsBig = [some 1, some 2] ∧
    deliveredOf lsBig = [some 2] ∧
    (deliveredOf lsBig).head? ≠ (acceptedOf lsBig).head? := by
  refine ⟨⟨by norm_num, by decide⟩, by decide, ?_, by decide, by decide,
    by decide⟩
  exact Traces.snoc
    (Traces.snoc (Traces.snoc (.nil ⟨qBig, []⟩) (Step.enq ⟨qBig, []⟩ (some 1)))
      (Step.enq (doEnqueueCall ⟨qBig, []⟩ (some 1)).1 (some 2)))
    (Step.deq cBig2)

/-- **C8 counterexample** A registered waiting consumer can coexist with
a non-empty buffer: after `dequeue; dequeue; enqueue(7)` on a capacity-1
queue, task 0 is still registered in the consumer stack while
`count = 1 ≠ 0` and the queue is open. -/
theorem waiting_state_cex :
    Traces ⟨qCap1, []⟩ lsGap3 cGap3 ∧
    cGap3.q.waitingConsumers = [0] ∧
    cGap3.tasks.get? 0 = some .deqWaiting ∧
    cGap3.q.closed = false ∧
    cGap3.q.count = 1 ∧
    cGap3.q.count ≠ 0 := by
  refine ⟨?_, by decide, by decide, by decide, by decide, by decide⟩
  exact Traces.snoc
    (Traces.snoc (Traces.snoc (.nil ⟨qCap1, []⟩) (Step.deq ⟨qCap1, []⟩))
      (Step.deq (doDequeueCall ⟨qCap1, []⟩).1))
    (Step.enq cGap2 (some 7))

/-- **C1 (amended)** FIFO item delivery, for every integer capacity
`1 ≤ C ≤ 2^30` (those whose rounded slot array really covers the
capacity; beyond `2^30` the constructor's 32-bit shift misbehaves, see
the counterexample): along every trace — any interleaving of calls,
wake-ups and resumptions, hence regardless of the order in which waiters
are woken — the sequence of items accepted into the buffer equals the
sequence of delivered items followed by the current buffer content.
Delivery order is therefore exactly acceptance order, and once the queue
is drained (`count = 0`) the delivered sequence is exactly the accepted
sequence `x1…xn`. -/
theorem fifo_delivery (C : ℕ) (h30 : C ≤ 2 ^ 30) (q0 : QState)
    (hq0 : mkQueue (C : ℚ) = some q0) (ls : List Label) (c : Config)
    (htr : Traces ⟨q0, []⟩ ls c) :
    acceptedOf ls = deliveredOf ls ++ bufItems c.q ∧
    (c.q.count = 0 → deliveredOf ls = acceptedOf ls) := by
  obtain ⟨hq, hacc⟩ := reach_binv h30 hq0 htr
  refine ⟨hacc, ?_⟩
  intro h0
  have hnil : bufItems c.q = [] :=
    List.length_eq_zero.mp (by rw [bufItems_length, h0])
  rw [hacc, hnil, List.append_nil]

/-- **C1 witness**: a drained four-step trace on a capacity-2 queue. -/
theorem fifo_delivery_witness :
    acceptedOf lsFour2 = deliveredOf lsFour2 ++ bufItems cFour2.q ∧
    deliveredOf lsFour2 = acceptedOf lsFour2 := by
  have htr : Traces ⟨qCap2, []⟩ lsFour2 cFour2 :=
    Traces.snoc
      (Traces.snoc
        (Traces.snoc (Traces.snoc (.nil ⟨qCap2, []⟩)
            (Step.enq ⟨qCap2, []⟩ (some 1)))
          (Step.enq (doEnqueueCall ⟨qCap2, []⟩ (some 1)).1 (some 2)))
        (Step.deq cTwo2))
      (Step.deq (doDequeueCall cTwo2).1)
  have h := fifo_delivery 2 (by norm_num) qCap2 (by decide) lsFour2 cFour2 htr
  exact ⟨h.1, h.2 (by decide)⟩

/-- **C2** Capacity bound invariant: in every reachable configuration of
a queue constructed with integer capacity `C`, `size` never exceeds `C`;
an `enqueue` called while `count = C` (queue open) suspends — its step
has no buffer event, the call is registered as a waiting producer and
`size` stays `C` — and a subsequent `dequeue` frees a slot and resumes
exactly that producer, whose resumed continuation then accepts the item
(`push` event), with `size` back at `C` and never above. -/
theorem capacity_bound (C : ℕ) (q0 : QState)
    (hq0 : mkQueue (C : ℚ) = some q0) (ls : List Label) (c : Config)
    (htr : Traces ⟨q0, []⟩ ls c) :
    size c.q ≤ C ∧
    (∀ item : Val, c.q.count = C → c.q.closed = false →
      (doEnqueueCall c item).2 = .tau ∧
      (doEnqueueCall c item).1.tasks.get? c.tasks.length =
        some (.enqWaiting item) ∧
      size (doEnqueueCall c item).1.q = C ∧
      (doDequeueCall (doEnqueueCall c item).1).1.tasks.get? c.tasks.length =
        some (.enqResumed item) ∧
      (doEnqueueResume (doDequeueCall (doEnqueueCall c item).1).1
          c.tasks.length item).2 = .push item ∧
      size (doEnqueueResume (doDequeueCall (doEnqueueCall c item).1).1
          c.tasks.length item).1.q = C) := by
  obtain ⟨hmax, hle⟩ := reach_count hq0 htr
  refine ⟨hle, ?_⟩
  intro item hfull hopen
  have h1C : 1 ≤ C := mkQueue_cpos hq0
  have hwait := enqueueStep_eq_wait hopen
    (show c.q.maxSize ≤ (c.q.count : ℚ) by rw [hmax, hfull])
    c.tasks.length item
  set c1 := (doEnqueueCall c item).1 with hc1def
  have hc1q : c1.q = { c.q with
      waitingProducers := c.q.waitingProducers ++ [c.tasks.length] } := by
    rw [hc1def]
    show (enqueueStep c.q c.tasks.length item).q = _
    rw [hwait]
  have hc1t : c1.tasks = c.tasks ++ [.enqWaiting item] := by
    rw [hc1def]
    show applyWake (c.tasks ++ [(enqueueStep c.q c.tasks.length item).task])
      (enqueueStep c.q c.tasks.length item).wake = _
    rw [hwait]
    rfl
  have h0c1 : c1.q.count ≠ 0 := by
    rw [hc1q]
    show c.q.count ≠ 0
    rw [hfull]
    omega
  have hprods : c1.q.waitingProducers =
      c.q.waitingProducers ++ [c.tasks.length] := by
    rw [hc1q]
  have hdeq := dequeueStep_eq_pop_wake h0c1 hprods c1.tasks.length
  set c2 := (doDequeueCall c1).1 with hc2def
  have hc2q : c2.q = { (removeFromBuffer c1.q).1 with
      waitingProducers := c.q.waitingProducers } := by
    rw [hc2def]
    show (dequeueStep c1.q c1.tasks.length).q = _
    rw [hdeq]
  have hrem := removeFromBuffer_lists h0c1
  have hc1count : c1.q.count = C := by
    rw [hc1q]
    exact hfull
  have hc2count : c2.q.count = C - 1 := by
    rw [hc2q]
    show (removeFromBuffer c1.q).1.count = _
    rw [hrem.2.2.2.2, hc1count]
  have hc2closed : c2.q.closed = false := by
    rw [hc2q]
    show (removeFromBuffer c1.q).1.closed = _
    rw [hrem.2.2.1]
    rw [hc1q]
    exact hopen
  have hc2max : c2.q.maxSize = (C : ℚ) := by
    rw [hc2q]
    show (removeFromBuffer c1.q).1.maxSize = _
    rw [hrem.2.2.2.1]
    rw [hc1q]
    exact hmax
  have hnle : ¬ (c2.q.maxSize ≤ (c2.q.count : ℚ)) := by
    rw [hc2max, hc2count, not_le]
    exact_mod_cast (show C - 1 < C by omega)
  refine ⟨?_, ?_, ?_, ?_, ?_, ?_⟩
  · show (enqueueStep c.q c.tasks.length item).lab = _
    rw [hwait]
  · show (applyWake (c.tasks ++ [(enqueueStep c.q c.tasks.length item).task])
      (enqueueStep c.q c.tasks.length item).wake).get? c.tasks.length = _
    rw [hwait]
    exact List.get?_concat_length _ _
  · show c1.q.count = C
    exact hc1count
  · show (applyWake (c1.tasks ++ [(dequeueStep c1.q c1.tasks.length).task])
      (dequeueStep c1.q c1.tasks.length).wake).get? c.tasks.length = _
    rw [hdeq]
    show (wakeTask (c1.tasks ++ [.deqDone (removeFromBuffer c1.q).2])
      c.tasks.length).get? c.tasks.length = _
    have hbase : (c1.tasks ++
        [TaskState.deqDone (removeFromBuffer c1.q).2]).get? c.tasks.length =
        some (.enqWaiting item) := by
      apply get?_append_task
      rw [hc1t]
      exact List.get?_concat_length _ _
    rw [wakeTask_get?_self hbase]
    rfl
  · rcases List.eq_nil_or_concat c2.q.waitingConsumers with hnil | ⟨cs, cid, hcc⟩
    · show (enqueueStep c2.q c.tasks.length item).lab = _
      rw [enqueueStep_eq_add_quiet hc2closed hnle hnil]
    · rw [List.concat_eq_append] at hcc
      show (enqueueStep c2.q c.tasks.length item).lab = _
      rw [enqueueStep_eq_add_wake hc2closed hnle hcc]
  · rcases List.eq_nil_or_concat c2.q.waitingConsumers with hnil | ⟨cs, cid, hcc⟩
    · show (enqueueStep c2.q c.tasks.length item).q.count = _
      rw [enqueueStep_eq_add_quiet hc2closed hnle hnil]
      show c2.q.count + 1 = C
      rw [hc2count]
      omega
    · rw [List.concat_eq_append] at hcc
      show (enqueueStep c2.q c.tasks.length item).q.count = _
      rw [enqueueStep_eq_add_wake hc2closed hnle hcc]
      show c2.q.count + 1 = C
      rw [hc2count]
      omega

/-- **C2 witness**: capacity 1, one item enqueued (full queue), then the
suspend/free/resume chain with item 9. -/
theorem capacity_bound_witness :
    size cFull1.q ≤ 1 ∧
    (doEnqueueCall cFull1 (some 9)).2 = .tau ∧
    (doEnqueueCall cFull1 (some 9)).1.tasks.get? 1 =
      some (.enqWaiting (some 9)) ∧
    size (doEnqueueCall cFull1 (some 9)).1.q = 1 ∧
    (doDequeueCall (doEnqueueCall cFull1 (some 9)).1).1.tasks.get? 1 =
      some (.enqResumed (some 9)) ∧
    (doEnqueueResume (doDequeueCall (doEnqueueCall cFull1 (some 9)).1).1
        1 (some 9)).2 = .push (some 9) ∧
    size (doEnqueueResume (doDequeueCall (doEnqueueCall cFull1 (some 9)).1).1
        1 (some 9)).1.q = 1 := by
  have htr : Traces ⟨qCap1, []⟩ lsFull1 cFull1 :=
    Traces.snoc (.nil ⟨qCap1, []⟩) (Step.enq ⟨qCap1, []⟩ (some 7))
  have h := capacity_bound 1 qCap1 (by decide) lsFull1 cFull1 htr
  have h2 := h.2 (some 9) (by decide) (by decide)
  exact ⟨h.1, h2.1, h2.2.1, h2.2.2.1, h2.2.2.2.1, h2.2.2.2.2.1, h2.2.2.2.2.2⟩

/-- **C3** Close-drains-then-ends: from any reachable configuration
(integer capacity `1 ≤ C ≤ 2^30`), after `close()` the next `count`
dequeue calls return exactly the buffered items in FIFO order, leaving
the queue empty and fully closed; every dequeue after that returns the
end-of-stream marker `undefined` forever; and `isClosed` is true exactly
in states where the `closed` flag is set and `count = 0`. -/
theorem close_drains_then_ends (C : ℕ) (h30 : C ≤ 2 ^ 30) (q0 : QState)
    (hq0 : mkQueue (C : ℚ) = some q0) (ls : List Label) (c : Config)
    (htr : Traces ⟨q0, []⟩ ls c) :
    (deqN (close c).q (close c).q.count).2 = bufItems c.q ∧
    (deqN (close c).q (close c).q.count).1.count = 0 ∧
    isClosed (deqN (close c).q (close c).q.count).1 = true ∧
    (∀ m, (deqN (deqN (close c).q (close c).q.count).1 m).2 =
      List.replicate m none) ∧
    (∀ q : QState, isClosed q = true ↔ (q.closed = true ∧ q.count = 0)) := by
  obtain ⟨hq, _⟩ := reach_binv h30 hq0 htr
  have hqc : QInv C (close c).q := hq.congr rfl rfl rfl rfl rfl
  have hbufc : bufItems (close c).q = bufItems c.q := bufItems_congr rfl rfl rfl
  obtain ⟨hd1, hd2, hd3⟩ := deqN_closed hqc rfl rfl
  refine ⟨hd1.trans hbufc, hd2, ?_, ?_, ?_⟩
  · simp [isClosed, hd2, hd3]
  · intro m
    exact (deqN_drained hd3 hd2 m).1
  · intro q
    simp [isClosed]

/-- **C3 witness**: capacity 2 with items 1 and 2 buffered, then closed
and drained. -/
theorem close_drains_then_ends_witness :
    (deqN (close cTwo2).q (close cTwo2).q.count).2 = bufItems cTwo2.q ∧
    (deqN (close cTwo2).q (close cTwo2).q.count).1.count = 0 ∧
    isClosed (deqN (close cTwo2).q (close cTwo2).q.count).1 = true ∧
    (deqN (deqN (close cTwo2).q (close cTwo2).q.count).1 3).2 =
      List.replicate 3 none ∧
    (isClosed qCap1 = true ↔ (qCap1.closed = true ∧ qCap1.count = 0)) := by
  have htr : Traces ⟨qCap2, []⟩ lsTwo2 cTwo2 :=
    Traces.snoc (Traces.snoc (.nil ⟨qCap2, []⟩)
        (Step.enq ⟨qCap2, []⟩ (some 1)))
      (Step.enq (doEnqueueCall ⟨qCap2, []⟩ (some 1)).1 (some 2))
  have h := close_drains_then_ends 2 (by norm_num) qCap2 (by decide) lsTwo2
    cTwo2 htr
  exact ⟨h.1, h.2.1, h.2.2.1, h.2.2.2.1 3, h.2.2.2.2 qCap1⟩

/-- **C5** Close sweep and idempotence, proved on the microtask-scheduled
machine (JS runs resolved continuations in FIFO resolution order; fresh
calls and `close()` still interleave arbitrarily), from any reachable
configuration of any successfully constructed queue.  `close()` resumes
every currently waiting consumer and then every currently waiting
producer exactly once: the two waiter stacks concatenated are
duplicate-free, the sweep appends exactly one `byClose` microtask entry
per waiter, the microtask queue's task ids stay duplicate-free, and
every task outside the stacks is untouched.  Both stacks are emptied
(both waiting counts become 0), buffered items are not touched, and a
repeated `close()` changes nothing.  Afterwards, in every reachable
state, whenever a consumer resumed by the sweep actually runs (its
`byClose` entry reaches the front of the microtask queue) the buffer is
already drained (`count = 0`), so it returns the end-of-stream marker
`undefined`; and whenever a resumed producer runs it fails with the
"queue closed" error. -/
theorem close_sweep (m : ℚ) (q0 : QState) (hq0 : mkQueue m = some q0)
    (c : SConfig) (hr : SReach ⟨q0, [], []⟩ c) :
    (sClose c).q.waitingConsumers = [] ∧
    (sClose c).q.waitingProducers = [] ∧
    waitingConsumerCount (sClose c).q = 0 ∧
    waitingProducerCount (sClose c).q = 0 ∧
    (sClose c).q.buffer = c.q.buffer ∧
    (sClose c).q.count = c.q.count ∧
    bufItems (sClose c).q = bufItems c.q ∧
    (c.q.waitingConsumers ++ c.q.waitingProducers).Nodup ∧
    (sClose c).mtq = c.mtq
      ++ c.q.waitingConsumers.map (fun tid => (⟨tid, true, true⟩ : MEntry))
      ++ c.q.waitingProducers.map (fun tid => (⟨tid, false, true⟩ : MEntry)) ∧
    ((sClose c).mtq.map MEntry.tid).Nodup ∧
    (∀ tid ∈ c.q.waitingConsumers,
      c.tasks.get? tid = some .deqWaiting ∧
      (sClose c).tasks.get? tid = some .deqResumed) ∧
    (∀ tid ∈ c.q.waitingProducers, ∃ v,
      c.tasks.get? tid = some (.enqWaiting v) ∧
      (sClose c).tasks.get? tid = some (.enqResumed v)) ∧
    (∀ tid, tid ∉ c.q.waitingConsumers → tid ∉ c.q.waitingProducers →
      (sClose c).tasks.get? tid = c.tasks.get? tid) ∧
    sClose (sClose c) = sClose c ∧
    (∀ c2, SReach (sClose c) c2 →
      (∀ e rest item, c2.mtq = e :: rest →
        c2.tasks.get? e.tid = some (.enqResumed item) →
        (sResumeEnq c2 e.tid rest item).tasks.get? e.tid =
          some (.enqDone false)) ∧
      (∀ e rest, c2.mtq = e :: rest → e.byClose = true →
        c2.tasks.get? e.tid = some .deqResumed →
        c2.q.count = 0 ∧
        (sResumeDeq c2 e.tid rest).tasks.get? e.tid =
          some (.deqDone none))) := by
  obtain ⟨ht, hM⟩ := sReach_inv hq0 hr
  have hMc : MInv (sClose c) := sStep_minv (SStep.close c) ht hM
  have hdisj : ∀ tid, tid ∈ c.q.waitingConsumers →
      tid ∈ c.q.waitingProducers → False := by
    intro tid hmc hmp
    obtain ⟨v, hv⟩ := ht.prods tid hmp
    have := (ht.cons tid hmc).symm.trans hv
    simp at this
  have hidem : sClose (sClose c) = sClose c := by
    have hmtq : (sClose c).mtq ++ [] ++ [] = (sClose c).mtq := by simp
    calc sClose (sClose c)
        = SConfig.mk (sClose c).q (sClose c).tasks
            ((sClose c).mtq ++ [] ++ []) := rfl
      _ = SConfig.mk (sClose c).q (sClose c).tasks (sClose c).mtq := by
            rw [hmtq]
      _ = sClose c := rfl
  refine ⟨rfl, rfl, rfl, rfl, rfl, rfl, bufItems_congr rfl rfl rfl,
    List.nodup_append.mpr ⟨ht.consND, ht.prodND, hdisj⟩, rfl, hMc.mtqND,
    ?_, ?_, ?_, hidem, ?_⟩
  · intro tid hm
    refine ⟨ht.cons tid hm, ?_⟩
    show (resumeIds (resumeIds c.tasks c.q.waitingConsumers)
      c.q.waitingProducers).get? tid = _
    rw [resumeIds_get?_not_mem (fun hmp => hdisj tid hm hmp),
      resumeIds_get?_mem ht.consND hm (ht.cons tid hm)]
    rfl
  · intro tid hm
    obtain ⟨v, hv⟩ := ht.prods tid hm
    refine ⟨v, hv, ?_⟩
    show (resumeIds (resumeIds c.tasks c.q.waitingConsumers)
      c.q.waitingProducers).get? tid = _
    rw [resumeIds_get?_mem ht.prodND hm
      (by rw [resumeIds_get?_not_mem (fun hmc => hdisj tid hmc hm)]
          exact hv)]
    rfl
  · intro tid hmc2 hmp2
    show (resumeIds (resumeIds c.tasks c.q.waitingConsumers)
      c.q.waitingProducers).get? tid = _
    rw [resumeIds_get?_not_mem hmp2, resumeIds_get?_not_mem hmc2]
  · intro c2 hr2
    obtain ⟨ht2, hM2⟩ := sReach_inv hq0
      (sReach_trans (SReach.tail hr (SStep.close c)) hr2)
    have hcl2 : c2.q.closed = true := sReach_closed_mono hr2 rfl
    constructor
    · intro e rest item hqm hres
      simp only [sResumeEnq, enqueueStep_eq_closed hcl2, applyWakeS]
      exact List.get?_set_eq_of_lt _ (get?_lt hres)
    · intro e rest hqm hby hres
      have hmem : e ∈ c2.mtq := by
        rw [hqm]
        exact List.mem_cons_self e rest
      have heC : e.isCons = true := by
        cases hic : e.isCons
        · obtain ⟨v, hv⟩ := hM2.mtqProd e hmem hic
          have := hv.symm.trans hres
          simp at this
        · rfl
      obtain ⟨l1, l2, heq, h1, h2⟩ := hM2.mtqSplit
      have hl1 : l1 = [] := by
        cases l1 with
        | nil => rfl
        | cons x l1 =>
          rw [hqm, List.cons_append] at heq
          injection heq with hx hrest2
          exact absurd ⟨hx ▸ heC, hx ▸ hby⟩ (h1 x (List.mem_cons_self x l1))
      have hall : ∀ e2 ∈ c2.mtq, ¬(e2.isCons = true ∧ e2.byClose = false) := by
        intro e2 he2
        apply h2
        rw [heq, hl1, List.nil_append] at he2
        exact he2
      have hu0 : uCount c2.mtq = 0 := uCount_eq_zero hall
      have hK := hM2.countK hcl2 ⟨e, hmem, heC, hby⟩
      have hc0 : c2.q.count = 0 := by omega
      refine ⟨hc0, ?_⟩
      simp only [sResumeDeq, dequeueStep_eq_end hc0 hcl2, applyWakeS]
      exact List.get?_set_eq_of_lt _ (get?_lt hres)

/-- **C5 witness**: the wake-gap scenario under FIFO microtask order.
`dequeue(); dequeue(); enqueue(7); close()` on a capacity-1 queue: the
enqueue wakes task 1, and `close()` resumes the still-registered task 0
behind it in the microtask queue.  Task 1 runs first and takes item 7,
so when the close-resumed task 0 runs the buffer is empty and it returns
the end-of-stream marker, exactly as the claim states. -/
theorem close_sweep_witness :
    sGap3.q.waitingConsumers = [0] ∧
    sGap3.q.count = 1 ∧
    sGap4.q.waitingConsumers = [] ∧
    sGap4.q.count = 1 ∧
    sGap4.tasks.get? 0 = some .deqResumed ∧
    sGap4.mtq = [⟨1, true, false⟩, ⟨0, true, true⟩] ∧
    sClose sGap4 = sGap4 ∧
    sGap5.tasks.get? 1 = some (.deqDone (some 7)) ∧
    sGap5.q.count = 0 ∧
    sGap5.mtq = [⟨0, true, true⟩] ∧
    (sResumeDeq sGap5 0 []).tasks.get? 0 = some (.deqDone none) := by
  have hr3 : SReach ⟨qCap1, [], []⟩ sGap3 :=
    SReach.tail (SReach.tail (SReach.tail (SReach.refl ⟨qCap1, [], []⟩)
      (SStep.deq ⟨qCap1, [], []⟩)) (SStep.deq (sDequeueCall ⟨qCap1, [], []⟩)))
      (SStep.enq sGap2 (some 7))
  have h := close_sweep 1 qCap1 (by decide) sGap3 hr3
  have hidem : sClose sGap4 = sGap4 :=
    h.2.2.2.2.2.2.2.2.2.2.2.2.2.1
  have hrun : SStep sGap4 sGap5 :=
    SStep.runDeq sGap4 ⟨1, true, false⟩ [⟨0, true, true⟩] (by decide)
      (by decide)
  have hend := (h.2.2.2.2.2.2.2.2.2.2.2.2.2.2 sGap5
    (SReach.tail (SReach.refl (sClose sGap3)) hrun)).2
    ⟨0, true, true⟩ [] (by decide) rfl (by decide)
  exact ⟨by decide, by decide, by decide, by decide, by decide, by decide,
    hidem, by decide, by decide, by decide, hend.2⟩

/-- **C7** LIFO single wake, in every reachable configuration of any
successfully constructed queue.  The waiter stacks grow by appending
(`pushWaiter` writes at the live count), so the most recently registered
waiter is the last element.  A successful (non-suspending, queue open)
`enqueue` call resumes exactly the last-registered waiting consumer —
that consumer's task goes from suspended to resumed, the stack loses
exactly its last entry, and every other existing task is untouched — and
wakes nobody when no consumer is waiting.  Symmetrically, a `dequeue`
that removes an item resumes exactly the last-registered waiting
producer, and no call resumes more than one waiter. -/
theorem lifo_single_wake (m : ℚ) (q0 : QState) (hq0 : mkQueue m = some q0)
    (ls : List Label) (c : Config) (htr : Traces ⟨q0, []⟩ ls c) :
    (∀ item : Val, c.q.closed = false → ¬ c.q.maxSize ≤ (c.q.count : ℚ) →
      (∀ cs cid, c.q.waitingConsumers = cs ++ [cid] →
        c.tasks.get? cid = some .deqWaiting ∧
        (doEnqueueCall c item).1.tasks.get? cid = some .deqResumed ∧
        (doEnqueueCall c item).1.q.waitingConsumers = cs ∧
        (∀ tid, tid ≠ cid → tid < c.tasks.length →
          (doEnqueueCall c item).1.tasks.get? tid = c.tasks.get? tid)) ∧
      (c.q.waitingConsumers = [] →
        (doEnqueueCall c item).1.tasks = c.tasks ++ [.enqDone true])) ∧
    (c.q.count ≠ 0 →
      (∀ ps pid, c.q.waitingProducers = ps ++ [pid] →
        (∃ v, c.tasks.get? pid = some (.enqWaiting v) ∧
          (doDequeueCall c).1.tasks.get? pid = some (.enqResumed v)) ∧
        (doDequeueCall c).1.q.waitingProducers = ps ∧
        (∀ tid, tid ≠ pid → tid < c.tasks.length →
          (doDequeueCall c).1.tasks.get? tid = c.tasks.get? tid)) ∧
      (c.q.waitingProducers = [] →
        (doDequeueCall c).1.tasks =
          c.tasks ++ [.deqDone (removeFromBuffer c.q).2])) := by
  have h := reach_tinv hq0 htr
  constructor
  · intro item hopen hnf
    constructor
    · intro cs cid hcc
      have hcidmem : cid ∈ c.q.waitingConsumers := by
        rw [hcc]; exact List.mem_append_right _ (List.mem_singleton_self _)
      have hw := h.cons cid hcidmem
      have henq := enqueueStep_eq_add_wake hopen hnf hcc c.tasks.length item
      refine ⟨hw, ?_, ?_, ?_⟩
      · show (applyWake (c.tasks ++ [(enqueueStep c.q c.tasks.length
            item).task]) (enqueueStep c.q c.tasks.length item).wake).get?
          cid = _
        rw [henq]
        show (wakeTask (c.tasks ++ [.enqDone true]) cid).get? cid = _
        rw [wakeTask_get?_self (get?_append_task hw)]
        rfl
      · show (enqueueStep c.q c.tasks.length item).q.waitingConsumers = cs
        rw [henq]
      · intro tid hne hlt
        show (applyWake (c.tasks ++ [(enqueueStep c.q c.tasks.length
            item).task]) (enqueueStep c.q c.tasks.length item).wake).get?
          tid = _
        rw [henq]
        show (wakeTask (c.tasks ++ [.enqDone true]) cid).get? tid = _
        rw [wakeTask_get?_ne (Ne.symm hne)]
        exact List.get?_append hlt
    · intro hnil
      have henq := enqueueStep_eq_add_quiet hopen hnf hnil c.tasks.length item
      show applyWake (c.tasks ++ [(enqueueStep c.q c.tasks.length item).task])
        (enqueueStep c.q c.tasks.length item).wake = _
      rw [henq]
      rfl
  · intro h0
    constructor
    · intro ps pid hpp
      have hpidmem : pid ∈ c.q.waitingProducers := by
        rw [hpp]; exact List.mem_append_right _ (List.mem_singleton_self _)
      obtain ⟨v, hv⟩ := h.prods pid hpidmem
      have hdeq := dequeueStep_eq_pop_wake h0 hpp c.tasks.length
      refine ⟨⟨v, hv, ?_⟩, ?_, ?_⟩
      · show (applyWake (c.tasks ++ [(dequeueStep c.q
            c.tasks.length).task]) (dequeueStep c.q c.tasks.length).wake).get?
          pid = _
        rw [hdeq]
        show (wakeTask (c.tasks ++ [.deqDone (removeFromBuffer c.q).2])
          pid).get? pid = _
        rw [wakeTask_get?_self (get?_append_task hv)]
        rfl
      · show (dequeueStep c.q c.tasks.length).q.waitingProducers = ps
        rw [hdeq]
      · intro tid hne hlt
        show (applyWake (c.tasks ++ [(dequeueStep c.q
            c.tasks.length).task]) (dequeueStep c.q c.tasks.length).wake).get?
          tid = _
        rw [hdeq]
        show (wakeTask (c.tasks ++ [.deqDone (removeFromBuffer c.q).2])
          pid).get? tid = _
        rw [wakeTask_get?_ne (Ne.symm hne)]
        exact List.get?_append hlt
    · intro hnil
      have hdeq := dequeueStep_eq_pop_quiet h0 hnil c.tasks.length
      show applyWake (c.tasks ++ [(dequeueStep c.q c.tasks.length).task])
        (dequeueStep c.q c.tasks.length).wake = _
      rw [hdeq]
      rfl

/-- **C7 witness**: a capacity-1 queue with one suspended consumer;
`enqueue(3)` resumes exactly that consumer and empties the stack. -/
theorem lifo_single_wake_witness :
    cWait1.tasks.get? 0 = some .deqWaiting ∧
    (doEnqueueCall cWait1 (some 3)).1.tasks.get? 0 = some .deqResumed ∧
    (doEnqueueCall cWait1 (some 3)).1.q.waitingConsumers = [] := by
  have htr : Traces ⟨qCap1, []⟩ lsWait1 cWait1 :=
    Traces.snoc (.nil ⟨qCap1, []⟩) (Step.deq ⟨qCap1, []⟩)
  have h := ((lifo_single_wake 1 qCap1 (by decide) lsWait1 cWait1 htr).1
    (some 3) (by decide) (by decide)).1 [] 0 (by decide)
  exact ⟨h.1, h.2.1, h.2.2.1⟩

/-- **C8 (amended)** Waiting-state invariant, corrected to registration
time: in every reachable configuration, no waiter survives close (once
`closed` is set both stacks are empty), and a waiter can only be
*registered* under the claimed conditions — an `enqueue` segment
suspends only when `count = C` and the queue is open, a `dequeue`
segment suspends only when `count = 0` and the queue is open.  The
original "exists only while" phrasing fails because a woken-but-not-yet-
run wake gap lets a registered waiter coexist with a changed count (see
the counterexample). -/
theorem waiting_registration (C : ℕ) (q0 : QState)
    (hq0 : mkQueue (C : ℚ) = some q0) (ls : List Label) (c : Config)
    (htr : Traces ⟨q0, []⟩ ls c) :
    (c.q.closed = true →
      c.q.waitingConsumers = [] ∧ c.q.waitingProducers = []) ∧
    (∀ tid item, (enqueueStep c.q tid item).task = .enqWaiting item →
      c.q.count = C ∧ c.q.closed = false) ∧
    (∀ tid, (dequeueStep c.q tid).task = .deqWaiting →
      c.q.count = 0 ∧ c.q.closed = false) := by
  have ht := reach_tinv hq0 htr
  obtain ⟨hmax, hle⟩ := reach_count hq0 htr
  refine ⟨ht.closedEmpty, ?_, ?_⟩
  · intro tid item hreg
    by_cases hc : c.q.closed = true
    · rw [enqueueStep_eq_closed hc] at hreg
      simp at hreg
    · have hc' : c.q.closed = false := by simpa using hc
      by_cases hf : c.q.maxSize ≤ (c.q.count : ℚ)
      · refine ⟨?_, hc'⟩
        rw [hmax] at hf
        have hCle : C ≤ c.q.count := by exact_mod_cast hf
        omega
      · rcases List.eq_nil_or_concat c.q.waitingConsumers with hnil | ⟨cs, cid, hcc⟩
        · rw [enqueueStep_eq_add_quiet hc' hf hnil] at hreg
          simp at hreg
        · rw [List.concat_eq_append] at hcc
          rw [enqueueStep_eq_add_wake hc' hf hcc] at hreg
          simp at hreg
  · intro tid hreg
    by_cases h0 : c.q.count = 0
    · by_cases hc : c.q.closed = true
      · rw [dequeueStep_eq_end h0 hc] at hreg
        simp at hreg
      · exact ⟨h0, by simpa using hc⟩
    · rcases List.eq_nil_or_concat c.q.waitingProducers with hnil | ⟨ps, pid, hpp⟩
      · rw [dequeueStep_eq_pop_quiet h0 hnil] at hreg
        simp at hreg
      · rw [List.concat_eq_append] at hpp
        rw [dequeueStep_eq_pop_wake h0 hpp] at hreg
        simp at hreg

/-- **C8 witness**: a `dequeue` registering on a fresh capacity-1 queue
observes `count = 0` and open; an `enqueue` registering on the full
queue observes `count = 1 = C` and open. -/
theorem waiting_registration_witness :
    (qCap1.count = 0 ∧ qCap1.closed = false) ∧
    (cFull1.q.count = 1 ∧ cFull1.q.closed = false) := by
  have htr : Traces ⟨qCap1, []⟩ lsFull1 cFull1 :=
    Traces.snoc (.nil ⟨qCap1, []⟩) (Step.enq ⟨qCap1, []⟩ (some 7))
  exact ⟨(waiting_registration 1 qCap1 (by decide) [] ⟨qCap1, []⟩
      (Traces.nil _)).2.2 0 (by decide),
    (waiting_registration 1 qCap1 (by decide) lsFull1 cFull1 htr).2.1 1
      (some 2) (by decide)⟩

end AsyncQueue
